import Mathlib

/-! Verification of the LevelDB write-path excerpt: the block-structured
log writer (src/db/log_writer.cc, src/db/log_format.h) and the skip list
(src/db/skiplist.h).  Machine integers are modelled as Nat with explicit
reduction modulo 2 ^ 32 where the code relies on 32-bit wraparound; byte
strings are lists of Nat; fallible collaborator calls return an explicit
Status value. -/

namespace LevelDB

/-! ### Log format constants (src/db/log_format.h) -/

/-- Record types from src/db/log_format.h (kZeroType = 0 reserved,
kFullType = 1, kFirstType = 2, kMiddleType = 3, kLastType = 4). -/
inductive RecordType where
  | kZeroType
  | kFullType
  | kFirstType
  | kMiddleType
  | kLastType
deriving DecidableEq, Repr

/-- Numeric value of a record type as stored in the header type byte. -/
def RecordType.toNat : RecordType → Nat
  | .kZeroType => 0
  | .kFullType => 1
  | .kFirstType => 2
  | .kMiddleType => 3
  | .kLastType => 4

/-- kMaxRecordType = kLastType (src/db/log_format.h). -/
def kMaxRecordType : Nat := 4

/-- kBlockSize = 32768 (src/db/log_format.h). -/
def kBlockSize : Nat := 32768

/-- kHeaderSize = 4 + 2 + 1 = checksum + length + type (src/db/log_format.h). -/
def kHeaderSize : Nat := 4 + 2 + 1

namespace crc32c

/-- Modelled from the spec: the checksum primitive (util/crc32c is not part
of the excerpt; the spec describes a streaming, seedable CRC-32C with
extend(seed, bytes) and Value, plus a fixed rotation-plus-constant masking
transform).  This is one step of the reflected CRC-32C bit recurrence with
polynomial 0x82f63b78. -/
def stepBit (c : Nat) : Nat :=
  if c % 2 = 1 then (c / 2) ^^^ 0x82f63b78 else c / 2

/-- Process one input byte of the CRC-32C stream. -/
def stepByte (c b : Nat) : Nat :=
  stepBit (stepBit (stepBit (stepBit (stepBit (stepBit (stepBit (stepBit (c ^^^ b % 256))))))))

/-- Fold the CRC state over a byte string. -/
def fold (c : Nat) (data : List Nat) : Nat := data.foldl stepByte c

/-- crc32c::Extend(init_crc, data, n): continue a streaming checksum.  The
running state is kept inverted between calls, as in the usual CRC-32C
formulation. -/
def Extend (crc : Nat) (data : List Nat) : Nat :=
  fold (crc ^^^ 0xffffffff) data ^^^ 0xffffffff

/-- crc32c::Value(data, n) = Extend(0, data, n). -/
def Value (data : List Nat) : Nat := Extend 0 data

/-- kMaskDelta, the fixed additive constant of the masking transform. -/
def kMaskDelta : Nat := 0xa282ead8

/-- crc32c::Mask: ((crc >> 15) | (crc << 17)) + kMaskDelta in 32-bit
arithmetic. -/
def Mask (crc : Nat) : Nat :=
  (((crc >>> 15) ||| (crc <<< 17 % 2 ^ 32)) + kMaskDelta) % 2 ^ 32

theorem fold_append (c : Nat) (a b : List Nat) :
    fold c (a ++ b) = fold (fold c a) b := by
  unfold fold
  exact List.foldl_append ..

/-- Streaming law: extending an already-extended checksum is the checksum
of the concatenation. -/
theorem Extend_Extend (c : Nat) (a b : List Nat) :
    Extend (Extend c a) b = Extend c (a ++ b) := by
  unfold Extend
  rw [fold_append]
  congr 2
  rw [Nat.xor_assoc, Nat.xor_self, Nat.xor_zero]

end crc32c

/-- Modelled from the spec: the outcome type of the durability
collaborator (leveldb/status.h is not part of the excerpt).  An outcome is
ok or an error carrying an abstract identity, so that verbatim error
propagation can be stated. -/
inductive Status where
  | ok
  | error (e : Nat)
deriving DecidableEq, Repr

/-- Status::ok(). -/
def Status.isOk : Status → Bool
  | .ok => true
  | .error _ => false

/-- Modelled from the spec: the durability target (WritableFile of
leveldb/env.h is not part of the excerpt; the spec specifies
append(bytes) -> outcome and flush() -> outcome, both fallible, called in
sequence).  contents records every byte handed to the target, script fixes
the outcome of the n-th append/flush call, calls counts calls made so
far. -/
structure WritableFile where
  contents : List Nat
  script : Nat → Status
  calls : Nat

/-- WritableFile::Append. -/
def WritableFile.Append (f : WritableFile) (data : List Nat) :
    WritableFile × Status :=
  ({ contents := f.contents ++ data, script := f.script, calls := f.calls + 1 },
   f.script f.calls)

/-- WritableFile::Flush. -/
def WritableFile.Flush (f : WritableFile) : WritableFile × Status :=
  ({ contents := f.contents, script := f.script, calls := f.calls + 1 },
   f.script f.calls)

/-- Modelled from the spec: EncodeFixed32 (util/coding.h is not part of
the excerpt); the header stores the 32-bit masked checksum little-endian. -/
def EncodeFixed32 (v : Nat) : List Nat :=
  [v % 256, v / 2 ^ 8 % 256, v / 2 ^ 16 % 256, v / 2 ^ 24 % 256]

/-- Writer state: current offset in the active block and the table of
precomputed per-type checksum seeds (src/db/log_writer.h).  The
destination file is threaded separately through each operation. -/
structure Writer where
  block_offset : Nat
  type_crc : List Nat

/-- InitTypeCrc: type_crc_[i] = crc32c::Value of the single byte i, for
i = 0 .. kMaxRecordType (src/db/log_writer.cc). -/
def InitTypeCrc : List Nat :=
  (List.range (kMaxRecordType + 1)).map (fun i => crc32c.Value [i])

/-- Writer::Writer(WritableFile* dest): block_offset_ = 0. -/
def Writer.mkEmpty : Writer :=
  { block_offset := 0, type_crc := InitTypeCrc }

/-- Writer::Writer(WritableFile* dest, uint64_t dest_length):
block_offset_ = dest_length % kBlockSize. -/
def Writer.mkAtLength (dest_length : Nat) : Writer :=
  { block_offset := dest_length % kBlockSize, type_crc := InitTypeCrc }

/-- Header bytes assembled by EmitPhysicalRecord: 4-byte masked checksum of
the type byte extended with the payload, 2-byte little-endian length,
1-byte type (src/db/log_writer.cc lines 118-129). -/
def recordHeader (w : Writer) (t : RecordType) (payload : List Nat) : List Nat :=
  EncodeFixed32 (crc32c.Mask (crc32c.Extend (w.type_crc.getD t.toNat 0) payload)) ++
    [payload.length % 256, payload.length / 2 ^ 8 % 256, t.toNat]

/-- Result of EmitPhysicalRecord: updated writer, updated file, status. -/
structure EmitResult where
  writer : Writer
  file : WritableFile
  status : Status

/-- Writer::EmitPhysicalRecord: append the header, then (on success) the
payload, then (on success) flush; block_offset_ is advanced by
kHeaderSize + length unconditionally before returning. -/
def EmitPhysicalRecord (w : Writer) (f : WritableFile) (t : RecordType)
    (payload : List Nat) : EmitResult :=
  let r1 := f.Append (recordHeader w t payload)
  let r2 :=
    if r1.2.isOk then
      let rp := r1.1.Append payload
      if rp.2.isOk then rp.1.Flush else rp
    else r1
  { writer := { block_offset := w.block_offset + kHeaderSize + payload.length,
                type_crc := w.type_crc },
    file := r2.1, status := r2.2 }

/-- Writer state after the new-block switch at the top of an AddRecord
iteration: when fewer than kHeaderSize bytes are left in the block the
offset resets to 0, otherwise it is unchanged. -/
def trailerW (w : Writer) : Writer :=
  if kBlockSize - w.block_offset < kHeaderSize then
    { block_offset := 0, type_crc := w.type_crc }
  else w

/-- File state after the new-block switch: when fewer than kHeaderSize
bytes are left and at least one byte is left, exactly that many zero
trailer bytes are appended (the status of this append is discarded by the
source). -/
def trailerF (w : Writer) (f : WritableFile) : WritableFile :=
  if kBlockSize - w.block_offset < kHeaderSize then
    (if 0 < kBlockSize - w.block_offset then
      (f.Append (List.replicate (kBlockSize - w.block_offset) 0)).1
    else f)
  else f

/-- fragment_length = min(left, avail) with
avail = kBlockSize - block_offset_ - kHeaderSize, taken after the
new-block switch. -/
def fragLen (w : Writer) (rest : List Nat) : Nat :=
  min rest.length (kBlockSize - (trailerW w).block_offset - kHeaderSize)

/-- Fragment type classification: Full if first and last, First if first
only, Last if last only, Middle otherwise. -/
def fragType (isBegin isEnd : Bool) : RecordType :=
  if isBegin && isEnd then .kFullType
  else if isBegin then .kFirstType
  else if isEnd then .kLastType
  else .kMiddleType

/-- Ghost record of one emitted fragment: the block offset at which its
header begins, its record type, and its payload bytes. -/
structure Fragment where
  off : Nat
  type : RecordType
  data : List Nat
deriving DecidableEq, Repr

/-- Result of AddRecord: final writer and file, returned status, and the
ghost trace of the fragments actually emitted. -/
structure AddResult where
  writer : Writer
  file : WritableFile
  status : Status
  frags : List Fragment

/-- The do-while loop of Writer::AddRecord, with explicit fuel (the loop
always terminates; AddRecord supplies fuel 2 * length + 2, shown
sufficient via loopMeasure).  Each iteration: switch to a new block if
fewer than kHeaderSize bytes remain (zero-filling the remainder), compute
the fragment length and type, emit one physical record, and continue while
the status is ok and payload bytes remain. -/
def addRecordLoop : Nat → Writer → WritableFile → List Nat → Bool → AddResult
  | 0, w, f, _, _ =>
      { writer := w, file := f, status := Status.error 0, frags := [] }
  | fuel + 1, w, f, rest, isBegin =>
      let t := fragType isBegin (rest.length == fragLen w rest)
      let e := EmitPhysicalRecord (trailerW w) (trailerF w f) t
                 (rest.take (fragLen w rest))
      let frag : Fragment :=
        { off := (trailerW w).block_offset, type := t,
          data := rest.take (fragLen w rest) }
      if e.status.isOk && decide (0 < (rest.drop (fragLen w rest)).length) then
        let r := addRecordLoop fuel e.writer e.file (rest.drop (fragLen w rest)) false
        { writer := r.writer, file := r.file, status := r.status,
          frags := frag :: r.frags }
      else
        { writer := e.writer, file := e.file, status := e.status,
          frags := [frag] }

/-- Upper bound on the iterations the AddRecord loop still needs: two
fuel units when the current block has exactly no payload room left (one
zero-length fragment is emitted before the block switch), one otherwise,
plus two per remaining payload byte. -/
def loopMeasure (w : Writer) (rest : List Nat) : Nat :=
  2 * rest.length +
    (if kBlockSize - (trailerW w).block_offset - kHeaderSize = 0 then 2 else 1)

/-- Status Writer::AddRecord(const Slice& slice). -/
def AddRecord (w : Writer) (f : WritableFile) (slice : List Nat) : AddResult :=
  addRecordLoop (2 * slice.length + 2) w f slice true

example :
    (AddRecord Writer.mkEmpty
      { contents := [], script := fun _ => Status.ok, calls := 0 }
      [97, 98]).status = Status.ok := by decide

example :
    ((AddRecord Writer.mkEmpty
      { contents := [], script := fun _ => Status.ok, calls := 0 }
      []).frags.map (fun fr => (fr.off, fr.type, fr.data.length))) =
    [(0, RecordType.kFullType, 0)] := by decide

/-! ### Basic facts about EmitPhysicalRecord and the block switch -/

theorem trailerW_offset (w : Writer) :
    (trailerW w).block_offset =
      if kBlockSize - w.block_offset < kHeaderSize then 0 else w.block_offset := by
  unfold trailerW
  split <;> rfl

theorem trailerW_offset_le (w : Writer) (h : w.block_offset ≤ kBlockSize) :
    (trailerW w).block_offset ≤ kBlockSize - kHeaderSize := by
  rw [trailerW_offset]
  unfold kBlockSize kHeaderSize at *
  split <;> omega

theorem trailerF_contents (w : Writer) (f : WritableFile)
    (h : kBlockSize - w.block_offset < kHeaderSize) :
    (trailerF w f).contents =
      f.contents ++ List.replicate (kBlockSize - w.block_offset) 0 := by
  unfold trailerF
  rw [if_pos h]
  by_cases h0 : 0 < kBlockSize - w.block_offset
  · rw [if_pos h0]
    rfl
  · rw [if_neg h0]
    have : kBlockSize - w.block_offset = 0 := by omega
    rw [this]
    simp

theorem trailerF_contents_ex (w : Writer) (f : WritableFile) :
    ∃ tail, (trailerF w f).contents = f.contents ++ tail := by
  unfold trailerF
  split
  · split
    · exact ⟨_, rfl⟩
    · exact ⟨[], (List.append_nil _).symm⟩
  · exact ⟨[], (List.append_nil _).symm⟩

theorem EmitPhysicalRecord_writer (w : Writer) (f : WritableFile)
    (t : RecordType) (p : List Nat) :
    (EmitPhysicalRecord w f t p).writer =
      { block_offset := w.block_offset + kHeaderSize + p.length,
        type_crc := w.type_crc } := rfl

theorem EmitPhysicalRecord_contents_ex (w : Writer) (f : WritableFile)
    (t : RecordType) (p : List Nat) :
    ∃ tail, (EmitPhysicalRecord w f t p).file.contents = f.contents ++ tail := by
  unfold EmitPhysicalRecord WritableFile.Append WritableFile.Flush
  dsimp only
  split
  · split
    · exact ⟨recordHeader w t p ++ p, by rw [List.append_assoc]⟩
    · exact ⟨recordHeader w t p ++ p, by rw [List.append_assoc]⟩
  · exact ⟨recordHeader w t p, rfl⟩

/-- Header-append failure: the status is returned verbatim, the payload
append and the flush are not performed. -/
theorem EmitPhysicalRecord_fail1 (w : Writer) (f : WritableFile)
    (t : RecordType) (p : List Nat) (e : Nat)
    (h : f.script f.calls = Status.error e) :
    (EmitPhysicalRecord w f t p).status = Status.error e ∧
    (EmitPhysicalRecord w f t p).file.calls = f.calls + 1 ∧
    (EmitPhysicalRecord w f t p).file.contents =
      f.contents ++ recordHeader w t p := by
  unfold EmitPhysicalRecord WritableFile.Append
  simp [h, Status.isOk]

/-- Payload-append failure: the status is returned verbatim and the flush
is not performed. -/
theorem EmitPhysicalRecord_fail2 (w : Writer) (f : WritableFile)
    (t : RecordType) (p : List Nat) (e : Nat)
    (h1 : f.script f.calls = Status.ok)
    (h2 : f.script (f.calls + 1) = Status.error e) :
    (EmitPhysicalRecord w f t p).status = Status.error e ∧
    (EmitPhysicalRecord w f t p).file.calls = f.calls + 2 := by
  unfold EmitPhysicalRecord WritableFile.Append
  simp [h1, h2, Status.isOk]

/-- Flush failure: the status is returned verbatim. -/
theorem EmitPhysicalRecord_fail3 (w : Writer) (f : WritableFile)
    (t : RecordType) (p : List Nat) (e : Nat)
    (h1 : f.script f.calls = Status.ok)
    (h2 : f.script (f.calls + 1) = Status.ok)
    (h3 : f.script (f.calls + 2) = Status.error e) :
    (EmitPhysicalRecord w f t p).status = Status.error e ∧
    (EmitPhysicalRecord w f t p).file.calls = f.calls + 3 := by
  unfold EmitPhysicalRecord WritableFile.Append WritableFile.Flush
  simp [h1, h2, h3, Status.isOk]

/-- Success: header append, payload append and flush all performed in
sequence, ok returned, header and payload bytes handed to the target. -/
theorem EmitPhysicalRecord_ok (w : Writer) (f : WritableFile)
    (t : RecordType) (p : List Nat)
    (h1 : f.script f.calls = Status.ok)
    (h2 : f.script (f.calls + 1) = Status.ok)
    (h3 : f.script (f.calls + 2) = Status.ok) :
    (EmitPhysicalRecord w f t p).status = Status.ok ∧
    (EmitPhysicalRecord w f t p).file.calls = f.calls + 3 ∧
    (EmitPhysicalRecord w f t p).file.contents =
      f.contents ++ recordHeader w t p ++ p := by
  refine ⟨?_, ?_, ?_⟩ <;>
    simp [EmitPhysicalRecord, WritableFile.Append, WritableFile.Flush,
      h1, h2, h3, Status.isOk]

/-! ### The AddRecord loop: termination measure and invariants -/

theorem fragLen_le (w : Writer) (rest : List Nat) :
    fragLen w rest ≤ rest.length := Nat.min_le_left ..

theorem take_fragLen_length (w : Writer) (rest : List Nat) :
    (rest.take (fragLen w rest)).length = fragLen w rest := by
  rw [List.length_take]
  exact Nat.min_eq_left (fragLen_le w rest)

theorem loopMeasure_pos (w : Writer) (rest : List Nat) :
    1 ≤ loopMeasure w rest := by
  unfold loopMeasure
  split <;> omega

/-- The loop measure strictly decreases across one iteration that
continues. -/
theorem loopMeasure_step (w : Writer) (rest : List Nat) (w1 : Writer)
    (hoff : w1.block_offset =
      (trailerW w).block_offset + kHeaderSize + fragLen w rest)
    (h : 0 < rest.length - fragLen w rest) :
    loopMeasure w1 (rest.drop (fragLen w rest)) < loopMeasure w rest := by
  have htw := trailerW_offset w
  have htw1 := trailerW_offset w1
  unfold loopMeasure
  unfold fragLen at hoff h ⊢
  rw [List.length_drop]
  rw [htw] at hoff h ⊢
  rw [htw1, hoff]
  unfold kBlockSize kHeaderSize at *
  split_ifs at * <;> omega

/-- One unfolding of the loop in terms of the named iteration pieces. -/
theorem addRecordLoop_succ (fuel : Nat) (w : Writer) (f : WritableFile)
    (rest : List Nat) (b : Bool) :
    addRecordLoop (fuel + 1) w f rest b =
      (let t := fragType b (rest.length == fragLen w rest)
       let e := EmitPhysicalRecord (trailerW w) (trailerF w f) t
                  (rest.take (fragLen w rest))
       let frag : Fragment :=
         { off := (trailerW w).block_offset, type := t,
           data := rest.take (fragLen w rest) }
       if e.status.isOk && decide (0 < (rest.drop (fragLen w rest)).length) then
         let r := addRecordLoop fuel e.writer e.file (rest.drop (fragLen w rest)) false
         { writer := r.writer, file := r.file, status := r.status,
           frags := frag :: r.frags }
       else
         { writer := e.writer, file := e.file, status := e.status,
           frags := [frag] }) := rfl

theorem EmitPhysicalRecord_offset (w : Writer) (f : WritableFile)
    (t : RecordType) (p : List Nat) :
    (EmitPhysicalRecord w f t p).writer.block_offset =
      w.block_offset + kHeaderSize + p.length := rfl

/-- The loop always records at least one fragment. -/
theorem addRecordLoop_frags_ne (fuel : Nat) (w : Writer) (f : WritableFile)
    (rest : List Nat) (b : Bool) (h : loopMeasure w rest ≤ fuel) :
    (addRecordLoop fuel w f rest b).frags ≠ [] := by
  cases fuel with
  | zero => exact absurd h (by have := loopMeasure_pos w rest; omega)
  | succ fuel =>
    rw [addRecordLoop_succ]
    dsimp only
    split
    · exact List.cons_ne_nil _ _
    · exact List.cons_ne_nil _ _

/-- Every fragment in the trace fits its block: the header starts at
fr.off ≤ kBlockSize - kHeaderSize and header plus payload end inside the
block; moreover the final writer offset stays ≤ kBlockSize. -/
theorem addRecordLoop_bounds (fuel : Nat) :
    ∀ (w : Writer) (f : WritableFile) (rest : List Nat) (b : Bool),
      loopMeasure w rest ≤ fuel → w.block_offset ≤ kBlockSize →
      (∀ fr ∈ (addRecordLoop fuel w f rest b).frags,
          fr.off + kHeaderSize + fr.data.length ≤ kBlockSize ∧
          fr.off ≤ kBlockSize - kHeaderSize ∧
          fr.data.length ≤ kBlockSize - kHeaderSize) ∧
      (addRecordLoop fuel w f rest b).writer.block_offset ≤ kBlockSize := by
  induction fuel with
  | zero =>
      intro w f rest b h _
      exact absurd h (by have := loopMeasure_pos w rest; omega)
  | succ fuel ih =>
      intro w f rest b h hoff
      have htw : (trailerW w).block_offset ≤ kBlockSize - kHeaderSize :=
        trailerW_offset_le w hoff
      have hfl : fragLen w rest ≤
          kBlockSize - (trailerW w).block_offset - kHeaderSize :=
        Nat.min_le_right ..
      have hframe : (trailerW w).block_offset + kHeaderSize + fragLen w rest ≤
          kBlockSize := by
        unfold kBlockSize kHeaderSize at *
        omega
      rw [addRecordLoop_succ]
      dsimp only
      split
      · rename_i hc
        rw [Bool.and_eq_true, decide_eq_true_iff, List.length_drop] at hc
        have hEoff : (EmitPhysicalRecord (trailerW w) (trailerF w f)
            (fragType b (rest.length == fragLen w rest))
            (rest.take (fragLen w rest))).writer.block_offset =
            (trailerW w).block_offset + kHeaderSize + fragLen w rest := by
          rw [EmitPhysicalRecord_offset, take_fragLen_length]
        have hms : loopMeasure (EmitPhysicalRecord (trailerW w) (trailerF w f)
            (fragType b (rest.length == fragLen w rest))
            (rest.take (fragLen w rest))).writer
            (rest.drop (fragLen w rest)) < loopMeasure w rest :=
          loopMeasure_step w rest _ hEoff (by omega)
        have hrec := ih (EmitPhysicalRecord (trailerW w) (trailerF w f)
            (fragType b (rest.length == fragLen w rest))
            (rest.take (fragLen w rest))).writer
          (EmitPhysicalRecord (trailerW w) (trailerF w f)
            (fragType b (rest.length == fragLen w rest))
            (rest.take (fragLen w rest))).file
          (rest.drop (fragLen w rest)) false (by omega) (by omega)
        refine ⟨?_, hrec.2⟩
        intro fr hfr
        rcases List.mem_cons.mp hfr with hfr | hfr
        · subst hfr
          dsimp only
          rw [take_fragLen_length]
          exact ⟨hframe, htw, by unfold kBlockSize kHeaderSize at *; omega⟩
        · exact hrec.1 fr hfr
      · refine ⟨?_, ?_⟩
        · intro fr hfr
          rcases List.mem_cons.mp hfr with hfr | hfr
          · subst hfr
            dsimp only
            rw [take_fragLen_length]
            exact ⟨hframe, htw, by unfold kBlockSize kHeaderSize at *; omega⟩
          · exact absurd hfr (List.not_mem_nil fr)
        · rw [EmitPhysicalRecord_offset, take_fragLen_length]
          exact hframe

/-- Shape of the fragment lengths: each fragment carries
min(remaining payload bytes, kBlockSize - fr.off - kHeaderSize) bytes. -/
def lensOk : Nat → List Fragment → Prop
  | _, [] => True
  | remaining, fr :: frs =>
      fr.data.length = min remaining (kBlockSize - fr.off - kHeaderSize) ∧
      lensOk (remaining - fr.data.length) frs

/-- Shape of the fragment types: Full for a single-fragment record, else
First, Middle*, Last (b tracks whether the next fragment is the first of
the logical record). -/
def fragTypesOk : Bool → List Fragment → Prop
  | _, [] => False
  | b, [fr] => fr.type = if b then RecordType.kFullType else RecordType.kLastType
  | b, fr :: frs =>
      fr.type = (if b then RecordType.kFirstType else RecordType.kMiddleType) ∧
      fragTypesOk false frs

theorem fragType_end (b : Bool) :
    fragType b true = if b then RecordType.kFullType else RecordType.kLastType := by
  cases b <;> rfl

theorem fragType_not_end (b : Bool) :
    fragType b false = if b then RecordType.kFirstType else RecordType.kMiddleType := by
  cases b <;> rfl

theorem addRecordLoop_lensOk (fuel : Nat) :
    ∀ (w : Writer) (f : WritableFile) (rest : List Nat) (b : Bool),
      loopMeasure w rest ≤ fuel →
      lensOk rest.length (addRecordLoop fuel w f rest b).frags := by
  induction fuel with
  | zero =>
      intro w f rest b h
      exact absurd h (by have := loopMeasure_pos w rest; omega)
  | succ fuel ih =>
      intro w f rest b h
      rw [addRecordLoop_succ]
      dsimp only
      have hlen : (rest.take (fragLen w rest)).length =
          min rest.length (kBlockSize - (trailerW w).block_offset - kHeaderSize) := by
        rw [take_fragLen_length]
        rfl
      split
      · rename_i hc
        rw [Bool.and_eq_true, decide_eq_true_iff, List.length_drop] at hc
        have hEoff : (EmitPhysicalRecord (trailerW w) (trailerF w f)
            (fragType b (rest.length == fragLen w rest))
            (rest.take (fragLen w rest))).writer.block_offset =
            (trailerW w).block_offset + kHeaderSize + fragLen w rest := by
          rw [EmitPhysicalRecord_offset, take_fragLen_length]
        have hms := loopMeasure_step w rest _ hEoff (by omega)
        have hrec := ih (EmitPhysicalRecord (trailerW w) (trailerF w f)
            (fragType b (rest.length == fragLen w rest))
            (rest.take (fragLen w rest))).writer
          (EmitPhysicalRecord (trailerW w) (trailerF w f)
            (fragType b (rest.length == fragLen w rest))
            (rest.take (fragLen w rest))).file
          (rest.drop (fragLen w rest)) false (by omega)
        rw [List.length_drop] at hrec
        refine ⟨hlen, ?_⟩
        rw [take_fragLen_length]
        exact hrec
      · exact ⟨hlen, trivial⟩

theorem addRecordLoop_types (fuel : Nat) :
    ∀ (w : Writer) (f : WritableFile) (rest : List Nat) (b : Bool),
      loopMeasure w rest ≤ fuel →
      (addRecordLoop fuel w f rest b).status.isOk = true →
      fragTypesOk b (addRecordLoop fuel w f rest b).frags := by
  induction fuel with
  | zero =>
      intro w f rest b h
      exact absurd h (by have := loopMeasure_pos w rest; omega)
  | succ fuel ih =>
      intro w f rest b h
      rw [addRecordLoop_succ]
      dsimp only
      split
      · rename_i hc
        rw [Bool.and_eq_true, decide_eq_true_iff, List.length_drop] at hc
        intro hok
        dsimp only at hok ⊢
        have hne : rest.length ≠ fragLen w rest := by omega
        have hbeq : (rest.length == fragLen w rest) = false :=
          beq_eq_false_iff_ne.mpr hne
        have hEoff : (EmitPhysicalRecord (trailerW w) (trailerF w f)
            (fragType b (rest.length == fragLen w rest))
            (rest.take (fragLen w rest))).writer.block_offset =
            (trailerW w).block_offset + kHeaderSize + fragLen w rest := by
          rw [EmitPhysicalRecord_offset, take_fragLen_length]
        have hms := loopMeasure_step w rest _ hEoff (by omega)
        have hrec := ih (EmitPhysicalRecord (trailerW w) (trailerF w f)
            (fragType b (rest.length == fragLen w rest))
            (rest.take (fragLen w rest))).writer
          (EmitPhysicalRecord (trailerW w) (trailerF w f)
            (fragType b (rest.length == fragLen w rest))
            (rest.take (fragLen w rest))).file
          (rest.drop (fragLen w rest)) false (by omega) hok
        have hrne := addRecordLoop_frags_ne fuel (EmitPhysicalRecord (trailerW w)
            (trailerF w f) (fragType b (rest.length == fragLen w rest))
            (rest.take (fragLen w rest))).writer
          (EmitPhysicalRecord (trailerW w) (trailerF w f)
            (fragType b (rest.length == fragLen w rest))
            (rest.take (fragLen w rest))).file
          (rest.drop (fragLen w rest)) false (by omega)
        cases hfr : (addRecordLoop fuel (EmitPhysicalRecord (trailerW w)
            (trailerF w f) (fragType b (rest.length == fragLen w rest))
            (rest.take (fragLen w rest))).writer
            (EmitPhysicalRecord (trailerW w) (trailerF w f)
              (fragType b (rest.length == fragLen w rest))
              (rest.take (fragLen w rest))).file
            (rest.drop (fragLen w rest)) false).frags with
        | nil => exact absurd hfr hrne
        | cons f2 fs =>
            rw [hfr] at hrec
            simp only [fragTypesOk]
            rw [hbeq, fragType_not_end]
            exact ⟨rfl, hrec⟩
      · rename_i hc
        intro hok
        rw [Bool.and_eq_true, decide_eq_true_iff, List.length_drop] at hc
        dsimp only at hok ⊢
        have hle : fragLen w rest ≤ rest.length := fragLen_le w rest
        have heq : rest.length = fragLen w rest := by
          rcases Decidable.em (0 < rest.length - fragLen w rest) with h1 | h1
          · exact absurd ⟨hok, h1⟩ hc
          · omega
        have hbeq : (rest.length == fragLen w rest) = true := beq_iff_eq.mpr heq
        simp only [fragTypesOk]
        rw [hbeq, fragType_end]

theorem addRecordLoop_contents (fuel : Nat) :
    ∀ (w : Writer) (f : WritableFile) (rest : List Nat) (b : Bool),
      ∃ tail, (addRecordLoop fuel w f rest b).file.contents =
        f.contents ++ tail := by
  induction fuel with
  | zero => intro w f rest b; exact ⟨[], by simp [addRecordLoop]⟩
  | succ fuel ih =>
      intro w f rest b
      rw [addRecordLoop_succ]
      dsimp only
      obtain ⟨t3, h3⟩ := trailerF_contents_ex w f
      obtain ⟨t2, h2⟩ := EmitPhysicalRecord_contents_ex (trailerW w) (trailerF w f)
        (fragType b (rest.length == fragLen w rest)) (rest.take (fragLen w rest))
      split
      · obtain ⟨t1, h1⟩ := ih (EmitPhysicalRecord (trailerW w) (trailerF w f)
            (fragType b (rest.length == fragLen w rest))
            (rest.take (fragLen w rest))).writer
          (EmitPhysicalRecord (trailerW w) (trailerF w f)
            (fragType b (rest.length == fragLen w rest))
            (rest.take (fragLen w rest))).file
          (rest.drop (fragLen w rest)) false
        exact ⟨t3 ++ (t2 ++ t1), by
          dsimp only
          rw [h1, h2, h3]
          simp [List.append_assoc]⟩
      · exact ⟨t3 ++ t2, by
          dsimp only
          rw [h2, h3]
          simp [List.append_assoc]⟩

/-- If the emit of the current fragment fails, the loop returns that very
status at once, with only the current fragment in the trace. -/
theorem addRecordLoop_abort (fuel : Nat) (w : Writer) (f : WritableFile)
    (rest : List Nat) (b : Bool) (e : Nat)
    (hm : loopMeasure w rest ≤ fuel)
    (hfail : (EmitPhysicalRecord (trailerW w) (trailerF w f)
        (fragType b (rest.length == fragLen w rest))
        (rest.take (fragLen w rest))).status = Status.error e) :
    addRecordLoop fuel w f rest b =
      { writer := (EmitPhysicalRecord (trailerW w) (trailerF w f)
          (fragType b (rest.length == fragLen w rest))
          (rest.take (fragLen w rest))).writer,
        file := (EmitPhysicalRecord (trailerW w) (trailerF w f)
          (fragType b (rest.length == fragLen w rest))
          (rest.take (fragLen w rest))).file,
        status := Status.error e,
        frags := [{ off := (trailerW w).block_offset,
                    type := fragType b (rest.length == fragLen w rest),
                    data := rest.take (fragLen w rest) }] } := by
  cases fuel with
  | zero => exact absurd hm (by have := loopMeasure_pos w rest; omega)
  | succ fuel =>
      rw [addRecordLoop_succ]
      dsimp only
      rw [hfail]
      dsimp only [Status.isOk]
      rw [Bool.false_and, if_neg (by simp)]

/-- The trailer part of a continuing AddRecord call: when fewer than
kHeaderSize bytes remain in the block, exactly that many zero bytes are
appended before anything else and the first fragment is emitted at block
offset 0. -/
theorem addRecordLoop_trailer (fuel : Nat) (w : Writer) (f : WritableFile)
    (rest : List Nat) (b : Bool)
    (hm : loopMeasure w rest ≤ fuel)
    (h : kBlockSize - w.block_offset < kHeaderSize) :
    (∃ tail, (addRecordLoop fuel w f rest b).file.contents =
        f.contents ++ List.replicate (kBlockSize - w.block_offset) 0 ++ tail) ∧
    ∃ fr frs, (addRecordLoop fuel w f rest b).frags = fr :: frs ∧ fr.off = 0 := by
  cases fuel with
  | zero => exact absurd hm (by have := loopMeasure_pos w rest; omega)
  | succ fuel =>
      have hoff0 : (trailerW w).block_offset = 0 := by
        rw [trailerW_offset, if_pos h]
      have htf := trailerF_contents w f h
      rw [addRecordLoop_succ]
      dsimp only
      obtain ⟨t2, h2⟩ := EmitPhysicalRecord_contents_ex (trailerW w) (trailerF w f)
        (fragType b (rest.length == fragLen w rest)) (rest.take (fragLen w rest))
      split
      · obtain ⟨t1, h1⟩ := addRecordLoop_contents fuel (EmitPhysicalRecord (trailerW w)
            (trailerF w f) (fragType b (rest.length == fragLen w rest))
            (rest.take (fragLen w rest))).writer
          (EmitPhysicalRecord (trailerW w) (trailerF w f)
            (fragType b (rest.length == fragLen w rest))
            (rest.take (fragLen w rest))).file
          (rest.drop (fragLen w rest)) false
        refine ⟨⟨t2 ++ t1, ?_⟩, ?_⟩
        · dsimp only
          rw [h1, h2, htf]
          simp [List.append_assoc]
        · exact ⟨_, _, rfl, hoff0⟩
      · refine ⟨⟨t2, ?_⟩, ?_⟩
        · dsimp only
          rw [h2, htf]
        · exact ⟨_, _, rfl, hoff0⟩

/-! ### Claim theorems for the log writer -/

/-- All-ok durability target, for concrete runs. -/
def okFile : WritableFile :=
  { contents := [], script := fun _ => Status.ok, calls := 0 }

/-- Durability target whose every call fails with error e. -/
def errFile (e : Nat) : WritableFile :=
  { contents := [], script := fun _ => Status.error e, calls := 0 }

theorem loopMeasure_le_fuel (w : Writer) (slice : List Nat) :
    loopMeasure w slice ≤ 2 * slice.length + 2 := by
  unfold loopMeasure
  split <;> omega

/-- C2: starting from any block offset in [0, kBlockSize), every fragment
emitted by AddRecord satisfies off + kHeaderSize + length ≤ kBlockSize
(so no 7-byte header straddles a block boundary), and whenever fewer than
kHeaderSize bytes remain in the block, exactly that many zero bytes are
appended as a trailer and the next fragment is emitted at block offset
0. -/
theorem c2_trailer_and_no_header_straddle :
    ∀ (w : Writer) (f : WritableFile) (slice : List Nat),
      w.block_offset < kBlockSize →
      (∀ fr ∈ (AddRecord w f slice).frags,
          fr.off + kHeaderSize + fr.data.length ≤ kBlockSize) ∧
      (kBlockSize - w.block_offset < kHeaderSize →
        (∃ tail, (AddRecord w f slice).file.contents =
            f.contents ++ List.replicate (kBlockSize - w.block_offset) 0 ++ tail) ∧
        ∃ fr frs, (AddRecord w f slice).frags = fr :: frs ∧ fr.off = 0) := by
  intro w f slice h
  have hm := loopMeasure_le_fuel w slice
  constructor
  · intro fr hfr
    exact ((addRecordLoop_bounds _ w f slice true hm (Nat.le_of_lt h)).1 fr hfr).1
  · intro h7
    exact addRecordLoop_trailer _ w f slice true hm h7

/-- Witness for C2: a writer resumed 5 bytes short of a block boundary. -/
theorem c2_witness :
    (Writer.mkAtLength 32763).block_offset < kBlockSize ∧
    ∃ fr frs,
      (AddRecord (Writer.mkAtLength 32763) okFile [5, 6]).frags = fr :: frs ∧
      fr.off = 0 :=
  ⟨by decide,
   ((c2_trailer_and_no_header_straddle (Writer.mkAtLength 32763) okFile [5, 6]
      (by decide)).2 (by decide)).2⟩

/-- C3: every AddRecord call emits at least one fragment (also for the
empty payload); each fragment carries min(remaining payload bytes,
kBlockSize - offset - kHeaderSize) bytes; and on a successful call the
types are Full for a single fragment, else First, Middle*, Last. -/
theorem c3_fragment_count_lengths_types :
    ∀ (w : Writer) (f : WritableFile) (slice : List Nat),
      (AddRecord w f slice).frags ≠ [] ∧
      lensOk slice.length (AddRecord w f slice).frags ∧
      ((AddRecord w f slice).status = Status.ok →
        fragTypesOk true (AddRecord w f slice).frags) := by
  intro w f slice
  have hm := loopMeasure_le_fuel w slice
  refine ⟨addRecordLoop_frags_ne _ w f slice true hm,
          addRecordLoop_lensOk _ w f slice true hm, ?_⟩
  intro hok
  exact addRecordLoop_types _ w f slice true hm (by rw [AddRecord] at hok; rw [hok]; rfl)

/-- Witness for C3: a two-byte record written at block offset 0. -/
theorem c3_witness :
    (AddRecord Writer.mkEmpty okFile [97, 98]).frags ≠ [] ∧
    lensOk 2 (AddRecord Writer.mkEmpty okFile [97, 98]).frags ∧
    fragTypesOk true (AddRecord Writer.mkEmpty okFile [97, 98]).frags := by
  obtain ⟨h1, h2, h3⟩ := c3_fragment_count_lengths_types Writer.mkEmpty okFile [97, 98]
  exact ⟨h1, h2, h3 (by decide)⟩

/-- C4: within EmitPhysicalRecord the header append, payload append and
flush run in this order, any failure skips the remaining calls and is
returned verbatim; and a failing emit makes the AddRecord loop stop at
once, returning that status with the remaining fragments unemitted. -/
theorem c4_error_aborts_and_propagates_verbatim :
    ∀ (w : Writer) (f : WritableFile) (t : RecordType) (p : List Nat) (e : Nat),
      (f.script f.calls = Status.error e →
        (EmitPhysicalRecord w f t p).status = Status.error e ∧
        (EmitPhysicalRecord w f t p).file.calls = f.calls + 1) ∧
      (f.script f.calls = Status.ok → f.script (f.calls + 1) = Status.error e →
        (EmitPhysicalRecord w f t p).status = Status.error e ∧
        (EmitPhysicalRecord w f t p).file.calls = f.calls + 2) ∧
      (f.script f.calls = Status.ok → f.script (f.calls + 1) = Status.ok →
          f.script (f.calls + 2) = Status.error e →
        (EmitPhysicalRecord w f t p).status = Status.error e ∧
        (EmitPhysicalRecord w f t p).file.calls = f.calls + 3) ∧
      (f.script f.calls = Status.ok → f.script (f.calls + 1) = Status.ok →
          f.script (f.calls + 2) = Status.ok →
        (EmitPhysicalRecord w f t p).status = Status.ok ∧
        (EmitPhysicalRecord w f t p).file.calls = f.calls + 3 ∧
        (EmitPhysicalRecord w f t p).file.contents =
          f.contents ++ recordHeader w t p ++ p) ∧
      ∀ (fuel : Nat) (rest : List Nat) (b : Bool),
        loopMeasure w rest ≤ fuel →
        (EmitPhysicalRecord (trailerW w) (trailerF w f)
            (fragType b (rest.length == fragLen w rest))
            (rest.take (fragLen w rest))).status = Status.error e →
        addRecordLoop fuel w f rest b =
          { writer := (EmitPhysicalRecord (trailerW w) (trailerF w f)
              (fragType b (rest.length == fragLen w rest))
              (rest.take (fragLen w rest))).writer,
            file := (EmitPhysicalRecord (trailerW w) (trailerF w f)
              (fragType b (rest.length == fragLen w rest))
              (rest.take (fragLen w rest))).file,
            status := Status.error e,
            frags := [{ off := (trailerW w).block_offset,
                        type := fragType b (rest.length == fragLen w rest),
                        data := rest.take (fragLen w rest) }] } := by
  intro w f t p e
  refine ⟨?_, ?_, ?_, ?_, ?_⟩
  · intro h1
    obtain ⟨a, b, _⟩ := EmitPhysicalRecord_fail1 w f t p e h1
    exact ⟨a, b⟩
  · intro h1 h2
    exact EmitPhysicalRecord_fail2 w f t p e h1 h2
  · intro h1 h2 h3
    exact EmitPhysicalRecord_fail3 w f t p e h1 h2 h3
  · intro h1 h2 h3
    exact EmitPhysicalRecord_ok w f t p h1 h2 h3
  · intro fuel rest b hm hfail
    exact addRecordLoop_abort fuel w f rest b e hm hfail

/-- Witness for C4: a target whose first append fails with error 7. -/
theorem c4_witness :
    (EmitPhysicalRecord Writer.mkEmpty (errFile 7) RecordType.kFullType [1]).status =
      Status.error 7 ∧
    (EmitPhysicalRecord Writer.mkEmpty (errFile 7) RecordType.kFullType [1]).file.calls =
      (errFile 7).calls + 1 :=
  (c4_error_aborts_and_propagates_verbatim Writer.mkEmpty (errFile 7)
    RecordType.kFullType [1] 7).1 (by decide)

/-- C5: the per-type seed precomputed at construction is the checksum of
the single type byte, and the masked seeded-extend checksum stored in the
header equals the masked streaming checksum of the type byte followed by
the payload. -/
theorem c5_checksum_seed_extensionally_correct :
    ∀ (t : RecordType) (p : List Nat) (L : Nat),
      InitTypeCrc.getD t.toNat 0 = crc32c.Value [t.toNat] ∧
      crc32c.Mask (crc32c.Extend (Writer.mkEmpty.type_crc.getD t.toNat 0) p) =
        crc32c.Mask (crc32c.Value (t.toNat :: p)) ∧
      crc32c.Mask (crc32c.Extend ((Writer.mkAtLength L).type_crc.getD t.toNat 0) p) =
        crc32c.Mask (crc32c.Value (t.toNat :: p)) ∧
      recordHeader Writer.mkEmpty t p =
        EncodeFixed32 (crc32c.Mask (crc32c.Value (t.toNat :: p))) ++
          [p.length % 256, p.length / 2 ^ 8 % 256, t.toNat] := by
  intro t p L
  have hseed : InitTypeCrc.getD t.toNat 0 = crc32c.Value [t.toNat] := by
    cases t <;> rfl
  have hext : crc32c.Mask (crc32c.Extend (crc32c.Value [t.toNat]) p) =
      crc32c.Mask (crc32c.Value (t.toNat :: p)) := by
    unfold crc32c.Value
    rw [crc32c.Extend_Extend]
    rfl
  refine ⟨hseed, ?_, ?_, ?_⟩
  · show crc32c.Mask (crc32c.Extend (InitTypeCrc.getD t.toNat 0) p) = _
    rw [hseed, hext]
  · show crc32c.Mask (crc32c.Extend (InitTypeCrc.getD t.toNat 0) p) = _
    rw [hseed, hext]
  · unfold recordHeader
    show EncodeFixed32 (crc32c.Mask (crc32c.Extend (InitTypeCrc.getD t.toNat 0) p)) ++ _ = _
    rw [hseed, hext]

/-- C7: constructing a Writer against an existing file length initializes
the block offset to that length modulo kBlockSize. -/
theorem c7_resume_offset_mod_block_size :
    ∀ L : Nat, (Writer.mkAtLength L).block_offset = L % kBlockSize :=
  fun _ => rfl

/-- C9: EmitPhysicalRecord advances block_offset by kHeaderSize + length
unconditionally — also when an append or the flush fails, the writer's
offset accounting is not rolled back. -/
theorem c9_block_offset_advance_unconditional :
    ∀ (w : Writer) (f : WritableFile) (t : RecordType) (p : List Nat),
      (EmitPhysicalRecord w f t p).writer.block_offset =
        w.block_offset + kHeaderSize + p.length :=
  fun _ _ _ _ => rfl

/-- C10: from any reachable offset (≤ kBlockSize) every fragment length
fits the block and the 2-byte length field, the assertions of
EmitPhysicalRecord hold, the trailer branch leaves the offset at most
kBlockSize - kHeaderSize (so the avail computation cannot underflow), and
the writer offset stays reachable. -/
theorem c10_fragment_length_fits_and_no_underflow :
    ∀ (w : Writer) (f : WritableFile) (slice : List Nat),
      w.block_offset ≤ kBlockSize →
      (∀ fr ∈ (AddRecord w f slice).frags,
          fr.data.length ≤ kBlockSize - kHeaderSize ∧
          fr.data.length ≤ 0xffff ∧
          fr.off + kHeaderSize + fr.data.length ≤ kBlockSize) ∧
      (trailerW w).block_offset + kHeaderSize ≤ kBlockSize ∧
      (AddRecord w f slice).writer.block_offset ≤ kBlockSize := by
  intro w f slice h
  have hm := loopMeasure_le_fuel w slice
  have hb := addRecordLoop_bounds _ w f slice true hm h
  refine ⟨?_, ?_, hb.2⟩
  · intro fr hfr
    obtain ⟨h1, h2, h3⟩ := hb.1 fr hfr
    refine ⟨h3, ?_, h1⟩
    unfold kBlockSize kHeaderSize at *
    omega
  · have := trailerW_offset_le w h
    unfold kBlockSize kHeaderSize at *
    omega

/-- Witness for C10: an AddRecord run from offset 0. -/
theorem c10_witness :
    Writer.mkEmpty.block_offset ≤ kBlockSize ∧
    (AddRecord Writer.mkEmpty okFile [3]).writer.block_offset ≤ kBlockSize :=
  ⟨by decide,
   (c10_fragment_length_fits_and_no_underflow Writer.mkEmpty okFile [3]
     (by decide)).2.2⟩

/-! ### Skip list (src/db/skiplist.h)

The template is instantiated at Key = Int with the integer three-way
comparator.  Nodes live in an arena list; pointers are indices into it;
index 0 is the head sentinel built by the constructor; the null pointer is
none.  The acquire/release atomics of the source are modelled as plain
reads and writes: the claims settled here concern the single-writer
functional behaviour, not cross-thread visibility. -/

/-- kMaxHeight = 12 (enum in src/db/skiplist.h). -/
def kMaxHeight : Nat := 12

/-- Three-way comparator over Int keys (the Comparator template
parameter: negative / zero / positive). -/
def compare3 (a b : Int) : Int :=
  if a < b then -1 else if b < a then 1 else 0

/-- Skip list node: immutable key plus one forward link per level;
next.length is the node's height, next.getD l none is the level-l link,
none models nullptr. -/
structure Node where
  key : Int
  next : List (Option Nat)
deriving DecidableEq, Repr

/-- Skip list state.  rnd models the random source of the writer
(Modelled from the spec: util/random.h is not part of the excerpt; the
spec only requires a source able to drive the 1-in-4 geometric sampling,
so the stream of successive rnd_.OneIn(kBranching) outcomes is an
arbitrary Boolean stream); rndIdx counts the draws made so far. -/
structure SkipList where
  nodes : List Node
  max_height : Nat
  rnd : Nat → Bool
  rndIdx : Nat

/-- Read a node from the arena (out-of-range reads never occur in
well-formed states; the default is a key-0 node of height 0). -/
def getNode (ns : List Node) (i : Nat) : Node :=
  ns.getD i { key := 0, next := [] }

/-- Node::Next(n) read on the arena list. -/
def listNext (ns : List Node) (i l : Nat) : Option Nat :=
  (getNode ns i).next.getD l none

/-- Node::Next(n): the level-l forward link of node i. -/
def nodeNext (S : SkipList) (i l : Nat) : Option Nat :=
  listNext S.nodes i l

/-- Key stored in node i. -/
def keyOf (S : SkipList) (i : Nat) : Int :=
  (getNode S.nodes i).key

/-- Height of node i (length of its link array). -/
def heightOf (S : SkipList) (i : Nat) : Nat :=
  (getNode S.nodes i).next.length

/-- Node::SetNext(n, x) on the arena list. -/
def setNextL (ns : List Node) (j l : Nat) (v : Option Nat) : List Node :=
  ns.set j { key := (getNode ns j).key, next := (getNode ns j).next.set l v }

/-- Equal(a, b) = (compare_(a, b) == 0). -/
def Equal (a b : Int) : Bool := compare3 a b == 0

/-- KeyIsAfterNode(key, n) = (n != nullptr) && (compare_(n->key, key) < 0). -/
def keyIsAfterNode (S : SkipList) (key : Int) (n : Option Nat) : Bool :=
  match n with
  | none => false
  | some m => decide (compare3 (keyOf S m) key < 0)

/-- Fuel that always suffices for the search loops of the source: the
searched position advances through nodes of strictly increasing key or
drops a level at each step. -/
def searchFuel (S : SkipList) : Nat := S.nodes.length + kMaxHeight + 1

/-- Loop body of FindGreaterOrEqual: walk forward while the next node's
key is before the target, otherwise record the predecessor and drop a
level; at level 0 return the next node.  Fuel exhaustion (never reached
from searchFuel in well-formed states) yields none. -/
def findGEAux (S : SkipList) (key : Int) :
    Nat → Nat → Nat → List Nat → Option (Option Nat × List Nat)
  | 0, _, _, _ => none
  | fuel + 1, x, level, prev =>
      if keyIsAfterNode S key (nodeNext S x level) then
        findGEAux S key fuel ((nodeNext S x level).getD 0) level prev
      else
        if level = 0 then some (nodeNext S x level, prev.set 0 x)
        else findGEAux S key fuel x (level - 1) (prev.set level x)

/-- FindGreaterOrEqual(key, prev): start at the head at level
GetMaxHeight() - 1.  The prev array (Node* prev[kMaxHeight], uninitialized
in the source and only read where initialized) starts as head entries. -/
def FindGreaterOrEqual (S : SkipList) (key : Int) :
    Option (Option Nat × List Nat) :=
  findGEAux S key (searchFuel S) 0 (S.max_height - 1)
    (List.replicate kMaxHeight 0)

/-- Branch condition of FindLessThan:
next == nullptr || compare_(next->key, key) >= 0. -/
def ltStop (S : SkipList) (key : Int) (n : Option Nat) : Bool :=
  match n with
  | none => true
  | some m => decide (0 ≤ compare3 (keyOf S m) key)

/-- Loop body of FindLessThan. -/
def findLTAux (S : SkipList) (key : Int) : Nat → Nat → Nat → Option Nat
  | 0, _, _ => none
  | fuel + 1, x, level =>
      if ltStop S key (nodeNext S x level) then
        if level = 0 then some x else findLTAux S key fuel x (level - 1)
      else findLTAux S key fuel ((nodeNext S x level).getD 0) level

/-- FindLessThan(key): the latest node before key (head if none). -/
def FindLessThan (S : SkipList) (key : Int) : Option Nat :=
  findLTAux S key (searchFuel S) 0 (S.max_height - 1)

/-- Loop body of FindLast. -/
def findLastAux (S : SkipList) : Nat → Nat → Nat → Option Nat
  | 0, _, _ => none
  | fuel + 1, x, level =>
      match nodeNext S x level with
      | none => if level = 0 then some x else findLastAux S fuel x (level - 1)
      | some m => findLastAux S fuel m level

/-- FindLast(): the last node of the list (head if empty). -/
def FindLast (S : SkipList) : Option Nat :=
  findLastAux S (searchFuel S) 0 (S.max_height - 1)

/-- Contains(key): FindGreaterOrEqual, then Equal on the found node. -/
def Contains (S : SkipList) (key : Int) : Bool :=
  match FindGreaterOrEqual S key with
  | some (some x, _) => Equal key (keyOf S x)
  | _ => false

/-- RandomHeight loop: height starts at 1 and increments while
height < kMaxHeight and the next 1-in-kBranching draw succeeds; each
evaluated draw consumes one random value.  The last argument is fuel
(kMaxHeight always suffices since height grows towards the cap). -/
def randomHeightGo (rnd : Nat → Bool) : Nat → Nat → Nat → Nat × Nat
  | idx, height, 0 => (height, idx)
  | idx, height, fuel + 1 =>
      if height < kMaxHeight then
        (if rnd idx then randomHeightGo rnd (idx + 1) (height + 1) fuel
         else (height, idx + 1))
      else (height, idx)

/-- RandomHeight(): sampled height and advanced random-stream index. -/
def RandomHeight (S : SkipList) : Nat × Nat :=
  randomHeightGo S.rnd S.rndIdx 1 kMaxHeight

/-- SkipList(cmp, arena): head node of key 0 (any key will do) and height
kMaxHeight with all links null; max_height_ = 1. -/
def mkSkipList (rnd : Nat → Bool) : SkipList :=
  { nodes := [{ key := 0, next := List.replicate kMaxHeight none }],
    max_height := 1, rnd := rnd, rndIdx := 0 }

/-- Insert(key): search with predecessor recording, sample a height,
extend the predecessor array with head entries for new top levels and
raise max_height_, allocate the node, then for each level copy the
predecessor's forward pointer into the new node and publish the new node
in the predecessor.  (On fuel exhaustion of the search, unreachable in
well-formed states, the list is returned unchanged.) -/
def linkStep (n : Nat) (prev : List Nat) (ns : List Node) (i : Nat) : List Node :=
  setNextL (setNextL ns n i (listNext ns (prev.getD i 0) i))
    (prev.getD i 0) i (some n)

theorem linkStep_eq (n : Nat) (prev : List Nat) (ns : List Node) (i : Nat) :
    linkStep n prev ns i =
      setNextL (setNextL ns n i (listNext ns (prev.getD i 0) i))
        (prev.getD i 0) i (some n) := rfl

def Insert (S : SkipList) (key : Int) : SkipList :=
  match FindGreaterOrEqual S key with
  | none => S
  | some (_, prev0) =>
      let h := (RandomHeight S).1
      let prev :=
        if S.max_height < h then
          (List.range' S.max_height (h - S.max_height)).foldl
            (fun p i => p.set i 0) prev0
        else prev0
      let maxh := if S.max_height < h then h else S.max_height
      let nodes0 := S.nodes ++ [{ key := key, next := List.replicate h none }]
      let nodes1 := (List.range h).foldl (linkStep S.nodes.length prev) nodes0
      { nodes := nodes1, max_height := maxh, rnd := S.rnd,
        rndIdx := (RandomHeight S).2 }

/-- Iterator::SeekToFirst: head_->Next(0). -/
def SeekToFirstNode (S : SkipList) : Option Nat := nodeNext S 0 0

/-- Iterator::Next: node_->Next(0). -/
def NextNode (S : SkipList) (cur : Nat) : Option Nat := nodeNext S cur 0

/-- Iterator::Seek(target): FindGreaterOrEqual(target, nullptr). -/
def SeekNode (S : SkipList) (target : Int) : Option Nat :=
  match FindGreaterOrEqual S target with
  | some (res, _) => res
  | none => none

/-- Iterator::SeekToLast: FindLast(), invalid if it is the head. -/
def SeekToLastNode (S : SkipList) : Option Nat :=
  match FindLast S with
  | some x => if x = 0 then none else some x
  | none => none

/-- Iterator::Prev: FindLessThan(node_->key), invalid if it is the head. -/
def PrevNode (S : SkipList) (cur : Nat) : Option Nat :=
  match FindLessThan S (keyOf S cur) with
  | some x => if x = 0 then none else some x
  | none => none

/-- Keys visited by SeekToFirst followed by repeated Next while valid. -/
def iterKeysAux (S : SkipList) : Nat → Option Nat → List Int
  | 0, _ => []
  | _ + 1, none => []
  | fuel + 1, some i => keyOf S i :: iterKeysAux S fuel (nodeNext S i 0)

/-- Full forward iteration of the list. -/
def iterKeys (S : SkipList) : List Int :=
  iterKeysAux S (S.nodes.length + 1) (SeekToFirstNode S)

/-- A sequence of Insert calls by the single writer. -/
def insertSeq (S : SkipList) (ks : List Int) : SkipList :=
  ks.foldl Insert S

example :
    Contains (insertSeq (mkSkipList (fun _ => false)) [5, 1, 9, 3]) 5 = true := by
  decide

example :
    Contains (insertSeq (mkSkipList (fun _ => false)) [5, 1, 9, 3]) 4 = false := by
  decide

example :
    iterKeys (insertSeq (mkSkipList (fun i => i % 3 == 0)) [5, 1, 9, 3]) =
      [1, 3, 5, 9] := by
  decide

example :
    (SeekNode (insertSeq (mkSkipList (fun i => i % 2 == 0)) [5, 1, 9, 3]) 4).map
        (keyOf (insertSeq (mkSkipList (fun i => i % 2 == 0)) [5, 1, 9, 3])) =
      some 5 := by
  decide

example :
    (SeekToLastNode (insertSeq (mkSkipList (fun _ => true)) [5, 1, 9, 3])).map
        (keyOf (insertSeq (mkSkipList (fun _ => true)) [5, 1, 9, 3])) =
      some 9 := by
  decide

/-! ### Comparator facts -/

theorem compare3_lt_iff (a b : Int) : compare3 a b < 0 ↔ a < b := by
  unfold compare3
  split_ifs <;> constructor <;> intro h <;> first
  | exact h.elim
  | omega

theorem compare3_eq_zero_iff (a b : Int) : compare3 a b = 0 ↔ a = b := by
  unfold compare3
  split_ifs <;> constructor <;> intro h <;> first
  | exact h.elim
  | omega

theorem compare3_nonneg_iff (a b : Int) : 0 ≤ compare3 a b ↔ b ≤ a := by
  unfold compare3
  split_ifs <;> constructor <;> intro h <;> first
  | exact h.elim
  | omega

theorem Equal_true_iff (a b : Int) : Equal a b = true ↔ a = b := by
  unfold Equal
  rw [beq_iff_eq]
  exact compare3_eq_zero_iff a b

theorem keyIsAfterNode_some_iff (S : SkipList) (key : Int) (m : Nat) :
    keyIsAfterNode S key (some m) = true ↔ keyOf S m < key := by
  unfold keyIsAfterNode
  rw [decide_eq_true_iff]
  exact compare3_lt_iff ..

theorem ltStop_some_iff (S : SkipList) (key : Int) (m : Nat) :
    ltStop S key (some m) = true ↔ key ≤ keyOf S m := by
  unfold ltStop
  rw [decide_eq_true_iff]
  exact compare3_nonneg_iff ..

/-! ### Well-formedness invariant -/

/-- j is the index of a linked non-head node. -/
def Real (S : SkipList) (j : Nat) : Prop := 1 ≤ j ∧ j < S.nodes.length

/-- j participates in the level-l list. -/
def InChain (S : SkipList) (l j : Nat) : Prop := Real S j ∧ l < heightOf S j

/-- j comes strictly after i in key order (the head, index 0, comes
before every node). -/
def After (S : SkipList) (i j : Nat) : Prop := i = 0 ∨ keyOf S i < keyOf S j

/-- Specification of a level-l forward link of node i: null iff no level-l
node comes after i, otherwise the level-l node after i with minimal
key. -/
def NextSpec (S : SkipList) (i l : Nat) : Option Nat → Prop
  | none => ∀ j, InChain S l j → ¬ After S i j
  | some m => InChain S l m ∧ After S i m ∧
      ∀ j, InChain S l j → After S i j → keyOf S m ≤ keyOf S j

/-- Well-formedness of a skip list state: the head sentinel exists with
kMaxHeight links, max_height is consistent, every node's height is in
range, keys are distinct, and every link satisfies NextSpec.  This is the
invariant stated in the source comments (strictly sorted level lists, each
a subsequence of the one below). -/
structure Wf (S : SkipList) : Prop where
  head_lt : 0 < S.nodes.length
  head_height : heightOf S 0 = kMaxHeight
  max_pos : 1 ≤ S.max_height
  max_le : S.max_height ≤ kMaxHeight
  height_pos : ∀ j, Real S j → 1 ≤ heightOf S j
  height_le : ∀ j, Real S j → heightOf S j ≤ S.max_height
  distinct : ∀ i j, Real S i → Real S j → keyOf S i = keyOf S j → i = j
  links : ∀ i l, i < S.nodes.length → l < heightOf S i →
    NextSpec S i l (nodeNext S i l)

/-! ### Counting real nodes in a key interval (termination potentials) -/

/-- Lower-bound test: with b = none every key qualifies (the head bound),
with b = some v only keys above v. -/
def aboveB (S : SkipList) (b : Option Int) (j : Nat) : Bool :=
  match b with
  | none => true
  | some v => decide (v < keyOf S j)

/-- Upper-bound test. -/
def belowB (S : SkipList) (t : Option Int) (j : Nat) : Bool :=
  match t with
  | none => true
  | some v => decide (keyOf S j < v)

/-- Real nodes whose key lies strictly between the optional bounds. -/
def midNodes (S : SkipList) (b t : Option Int) : List Nat :=
  (List.range S.nodes.length).filter
    (fun j => decide (1 ≤ j) && aboveB S b j && belowB S t j)

/-- Key bound represented by standing at node i (head = no bound). -/
def bOf (S : SkipList) (i : Nat) : Option Int :=
  if i = 0 then none else some (keyOf S i)

theorem mem_midNodes (S : SkipList) (b t : Option Int) (j : Nat) :
    j ∈ midNodes S b t ↔
      Real S j ∧ aboveB S b j = true ∧ belowB S t j = true := by
  unfold midNodes Real
  rw [List.mem_filter, List.mem_range]
  rw [Bool.and_eq_true, Bool.and_eq_true, decide_eq_true_iff]
  tauto

theorem midNodes_nodup (S : SkipList) (b t : Option Int) :
    (midNodes S b t).Nodup :=
  (List.nodup_range _).filter _

theorem after_iff_aboveB (S : SkipList) (i j : Nat) :
    After S i j ↔ aboveB S (bOf S i) j = true := by
  by_cases h : i = 0 <;> simp [After, bOf, aboveB, h]

theorem length_lt_of_sublist_missing {α : Type} {l₁ l₂ : List α}
    (h : List.Sublist l₁ l₂) (a : α) (ha2 : a ∈ l₂) (ha1 : a ∉ l₁) :
    l₁.length < l₂.length := by
  rcases Nat.lt_or_ge l₁.length l₂.length with h1 | h1
  · exact h1
  · have heq := h.eq_of_length (Nat.le_antisymm h.length_le h1)
    rw [heq] at ha1
    exact absurd ha2 ha1

/-- Advancing the walk to a node m inside the interval strictly shrinks
the interval ahead. -/
theorem midNodes_advance_lt (S : SkipList) (b t : Option Int) (m : Nat)
    (hm : m ∈ midNodes S b t) :
    (midNodes S (some (keyOf S m)) t).length < (midNodes S b t).length := by
  obtain ⟨hmr, hma, hmb⟩ := (mem_midNodes S b t m).mp hm
  have hsub : List.Sublist (midNodes S (some (keyOf S m)) t) (midNodes S b t) := by
    unfold midNodes
    apply List.monotone_filter_right
    intro a ha
    rw [Bool.and_eq_true, Bool.and_eq_true] at ha ⊢
    refine ⟨⟨ha.1.1, ?_⟩, ha.2⟩
    have hka : keyOf S m < keyOf S a := by
      have := ha.1.2
      unfold aboveB at this
      exact of_decide_eq_true this
    cases b with
    | none => rfl
    | some v =>
        unfold aboveB at hma ⊢
        rw [decide_eq_true_iff] at hma ⊢
        omega
  refine length_lt_of_sublist_missing hsub m hm ?_
  rw [mem_midNodes]
  rintro ⟨-, ha, -⟩
  unfold aboveB at ha
  rw [decide_eq_true_iff] at ha
  omega

/-- When m is the least interval node, the interval splits as m followed
by the interval above m. -/
theorem midNodes_cons_perm (S : SkipList) (b t : Option Int) (m : Nat)
    (hm : m ∈ midNodes S b t)
    (hmin : ∀ j, j ∈ midNodes S b t → j ≠ m → keyOf S m < keyOf S j) :
    List.Perm (midNodes S b t) (m :: midNodes S (some (keyOf S m)) t) := by
  obtain ⟨hmr, hma, hmb⟩ := (mem_midNodes S b t m).mp hm
  have hnotm : m ∉ midNodes S (some (keyOf S m)) t := by
    rw [mem_midNodes]
    rintro ⟨-, ha, -⟩
    unfold aboveB at ha
    rw [decide_eq_true_iff] at ha
    omega
  apply (List.perm_ext_iff_of_nodup (midNodes_nodup ..) ?_).mpr
  · intro a
    constructor
    · intro ha
      by_cases ham : a = m
      · rw [ham]
        exact List.mem_cons_self ..
      · refine List.mem_cons_of_mem _ ?_
        obtain ⟨har, haa, hab⟩ := (mem_midNodes ..).mp ha
        rw [mem_midNodes]
        refine ⟨har, ?_, hab⟩
        unfold aboveB
        rw [decide_eq_true_iff]
        exact hmin a ha ham
    · intro ha
      rcases List.mem_cons.mp ha with rfl | ha
      · exact hm
      · obtain ⟨har, haa, hab⟩ := (mem_midNodes ..).mp ha
        rw [mem_midNodes]
        refine ⟨har, ?_, hab⟩
        unfold aboveB at haa ⊢
        rw [decide_eq_true_iff] at haa
        cases b with
        | none => rfl
        | some v =>
            unfold aboveB at hma
            rw [decide_eq_true_iff] at hma ⊢
            omega
  · exact List.Nodup.cons hnotm (midNodes_nodup ..)

/-! ### Specifications of the three searches -/

/-- Specification of FindGreaterOrEqual's return value: the real node of
least key at or above the target, or null when none exists. -/
def GeSpec (S : SkipList) (key : Int) : Option Nat → Prop
  | none => ∀ j, Real S j → keyOf S j < key
  | some r => Real S r ∧ key ≤ keyOf S r ∧
      ∀ j, Real S j → key ≤ keyOf S j → keyOf S r ≤ keyOf S j

/-- Specification of the prev entry recorded at level l: the last level-l
node strictly before the target key (the head when none exists). -/
def PrevSpec (S : SkipList) (key : Int) (l : Nat) (p : Nat) : Prop :=
  (p = 0 ∧ ∀ j, InChain S l j → ¬ keyOf S j < key) ∨
  (Real S p ∧ l < heightOf S p ∧ keyOf S p < key ∧
    ∀ j, InChain S l j → keyOf S j < key → keyOf S j ≤ keyOf S p)

theorem getD_set_self (l : List Nat) (i x d : Nat) (h : i < l.length) :
    (l.set i x).getD i d = x := by
  simp [List.getD_eq_getElem?_getD, List.getElem?_set, h]

theorem getD_set_ne (l : List Nat) (i j x d : Nat) (h : i ≠ j) :
    (l.set i x).getD j d = l.getD j d := by
  simp [List.getD_eq_getElem?_getD, List.getElem?_set, h]

theorem getD_replicate_zero (n l : Nat) :
    (List.replicate n (0 : Nat)).getD l 0 = 0 := by
  by_cases h : l < n
  · simp [List.getD_eq_getElem?_getD, List.getElem?_replicate, h]
  · rw [List.getD_eq_default]
    rw [List.length_replicate]
    omega

theorem height_le_kMaxHeight (S : SkipList) (hWf : Wf S) (x : Nat)
    (hx : x < S.nodes.length) : heightOf S x ≤ kMaxHeight := by
  by_cases h0 : x = 0
  · rw [h0, hWf.head_height]
  · exact Nat.le_trans (hWf.height_le x ⟨by omega, hx⟩) hWf.max_le

theorem real_inChain0 (S : SkipList) (hWf : Wf S) (j : Nat) (h : Real S j) :
    InChain S 0 j :=
  ⟨h, hWf.height_pos j h⟩

/-- At a stop (the next node is null or at/after the target), the current
node is the last level-l node before the target. -/
theorem stop_prevSpec (S : SkipList) (key : Int) (x level : Nat) (hWf : Wf S)
    (hx : x < S.nodes.length)
    (hxk : x = 0 ∨ (1 ≤ x ∧ keyOf S x < key))
    (hlv : level < heightOf S x)
    (hstop : ∀ m, nodeNext S x level = some m → ¬ keyOf S m < key) :
    PrevSpec S key level x := by
  have hns := hWf.links x level hx hlv
  rcases hxk with hx0 | ⟨hx1, hxlt⟩
  · subst hx0
    left
    refine ⟨rfl, ?_⟩
    intro j hj hjk
    cases hnx : nodeNext S 0 level with
    | none =>
        rw [hnx] at hns
        exact hns j hj (Or.inl rfl)
    | some m =>
        rw [hnx] at hns
        obtain ⟨-, -, hmin⟩ := hns
        have h1 := hmin j hj (Or.inl rfl)
        have h2 := hstop m hnx
        omega
  · right
    refine ⟨⟨hx1, hx⟩, hlv, hxlt, ?_⟩
    intro j hj hjk
    by_contra hc
    push_neg at hc
    cases hnx : nodeNext S x level with
    | none =>
        rw [hnx] at hns
        exact hns j hj (Or.inr hc)
    | some m =>
        rw [hnx] at hns
        obtain ⟨-, -, hmin⟩ := hns
        have h1 := hmin j hj (Or.inr hc)
        have h2 := hstop m hnx
        omega

/-- At a stop on level 0, the next node satisfies the FindGreaterOrEqual
specification. -/
theorem stop_geSpec (S : SkipList) (key : Int) (x : Nat) (hWf : Wf S)
    (hx : x < S.nodes.length)
    (hxk : x = 0 ∨ (1 ≤ x ∧ keyOf S x < key))
    (hlv : 0 < heightOf S x)
    (hstop : ∀ m, nodeNext S x 0 = some m → ¬ keyOf S m < key) :
    GeSpec S key (nodeNext S x 0) := by
  have hns := hWf.links x 0 hx hlv
  cases hnx : nodeNext S x 0 with
  | none =>
      rw [hnx] at hns
      intro j hj
      have hchain := real_inChain0 S hWf j hj
      have hnotafter := hns j hchain
      unfold After at hnotafter
      push_neg at hnotafter
      rcases hxk with hx0 | ⟨-, hxlt⟩
      · exact absurd hx0 hnotafter.1
      · have := hnotafter.2
        omega
  | some m =>
      rw [hnx] at hns
      obtain ⟨hmc, hma, hmin⟩ := hns
      have hmk : ¬ keyOf S m < key := hstop m hnx
      refine ⟨hmc.1, by omega, ?_⟩
      intro j hj hjk
      refine hmin j (real_inChain0 S hWf j hj) ?_
      rcases hxk with hx0 | ⟨-, hxlt⟩
      · exact Or.inl hx0
      · exact Or.inr (by omega)

/-- Main correctness lemma for the FindGreaterOrEqual loop: from a node
before the target with enough fuel, the loop returns the least node at or
after the target and records the per-level predecessors. -/
theorem findGEAux_spec (S : SkipList) (key : Int) (hWf : Wf S) :
    ∀ (fuel x level : Nat) (prev : List Nat),
      x < S.nodes.length →
      (x = 0 ∨ (1 ≤ x ∧ keyOf S x < key)) →
      level < heightOf S x →
      (midNodes S (bOf S x) (some key)).length + level + 1 ≤ fuel →
      prev.length = kMaxHeight →
      ∃ res p, findGEAux S key fuel x level prev = some (res, p) ∧
        GeSpec S key res ∧ p.length = kMaxHeight ∧
        (∀ l, level < l → p.getD l 0 = prev.getD l 0) ∧
        (∀ l, l ≤ level → PrevSpec S key l (p.getD l 0)) := by
  intro fuel
  induction fuel with
  | zero => intro x level prev _ _ _ hf _; omega
  | succ fuel ih =>
      intro x level prev hx hxk hlv hf hplen
      have hh12 : heightOf S x ≤ kMaxHeight := height_le_kMaxHeight S hWf x hx
      cases haft : keyIsAfterNode S key (nodeNext S x level) with
      | false =>
          have hstop : ∀ m, nodeNext S x level = some m → ¬ keyOf S m < key := by
            intro m hm hlt
            have ht : keyIsAfterNode S key (some m) = true :=
              (keyIsAfterNode_some_iff S key m).mpr hlt
            rw [hm, ht] at haft
            exact absurd haft (by simp)
          have hprev : PrevSpec S key level x :=
            stop_prevSpec S key x level hWf hx hxk hlv hstop
          by_cases hl0 : level = 0
          · subst hl0
            refine ⟨nodeNext S x 0, prev.set 0 x, ?_,
              stop_geSpec S key x hWf hx hxk hlv hstop, ?_, ?_, ?_⟩
            · simp only [findGEAux]
              rw [haft, if_neg Bool.false_ne_true]
              simp
            · rw [List.length_set]
              exact hplen
            · intro l hl
              exact getD_set_ne _ _ _ _ _ (by omega)
            · intro l hl
              have hl' : l = 0 := by omega
              subst hl'
              rw [getD_set_self _ _ _ _ (by rw [hplen]; unfold kMaxHeight; omega)]
              exact hprev
          · have hlv' : level - 1 < heightOf S x := by omega
            have hf' : (midNodes S (bOf S x) (some key)).length + (level - 1) + 1 ≤
                fuel := by omega
            obtain ⟨res, p, heq, hge, hlen, hup, hdown⟩ :=
              ih x (level - 1) (prev.set level x) hx hxk hlv' hf'
                (by rw [List.length_set]; exact hplen)
            refine ⟨res, p, ?_, hge, hlen, ?_, ?_⟩
            · simp only [findGEAux]
              rw [haft, if_neg Bool.false_ne_true, if_neg hl0]
              exact heq
            · intro l hl
              rw [hup l (by omega), getD_set_ne _ _ _ _ _ (by omega)]
            · intro l hl
              by_cases hll : l ≤ level - 1
              · exact hdown l hll
              · have hl' : l = level := by omega
                subst hl'
                rw [hup l (by omega),
                  getD_set_self _ _ _ _ (by
                    rw [hplen]
                    unfold kMaxHeight at *
                    omega)]
                exact hprev
      | true =>
          obtain ⟨m, hnx⟩ : ∃ m, nodeNext S x level = some m := by
            cases hnx : nodeNext S x level with
            | none =>
                rw [hnx] at haft
                exact absurd haft (by simp [keyIsAfterNode])
            | some m => exact ⟨m, rfl⟩
          have hmk : keyOf S m < key := by
            rw [hnx] at haft
            exact (keyIsAfterNode_some_iff S key m).mp haft
          have hns := hWf.links x level hx hlv
          rw [hnx] at hns
          obtain ⟨⟨hmr, hmh⟩, hma, hmm⟩ := hns
          obtain ⟨hm1, hm2⟩ := hmr
          have hmmem : m ∈ midNodes S (bOf S x) (some key) := by
            rw [mem_midNodes]
            refine ⟨⟨hm1, hm2⟩, (after_iff_aboveB S x m).mp hma, ?_⟩
            unfold belowB
            rw [decide_eq_true_iff]
            exact hmk
          have hcount := midNodes_advance_lt S (bOf S x) (some key) m hmmem
          have hbm : bOf S m = some (keyOf S m) := by
            unfold bOf
            rw [if_neg (by omega)]
          have hf' : (midNodes S (bOf S m) (some key)).length + level + 1 ≤ fuel := by
            rw [hbm]
            omega
          obtain ⟨res, p, heq, hge, hlen, hup, hdown⟩ :=
            ih m level prev hm2 (Or.inr ⟨hm1, hmk⟩) hmh hf' hplen
          refine ⟨res, p, ?_, hge, hlen, hup, hdown⟩
          simp only [findGEAux]
          rw [haft, if_pos rfl, hnx]
          exact heq

/-- FindGreaterOrEqual correctness under the invariant. -/
theorem FindGreaterOrEqual_spec (S : SkipList) (key : Int) (hWf : Wf S) :
    ∃ res p, FindGreaterOrEqual S key = some (res, p) ∧
      GeSpec S key res ∧ p.length = kMaxHeight ∧
      (∀ l, l < S.max_height → PrevSpec S key l (p.getD l 0)) ∧
      (∀ l, S.max_height ≤ l → p.getD l 0 = 0) := by
  unfold FindGreaterOrEqual
  have h0 : (0 : Nat) < S.nodes.length := hWf.head_lt
  have hmax := hWf.max_pos
  have hmax2 := hWf.max_le
  have hlv : S.max_height - 1 < heightOf S 0 := by
    rw [hWf.head_height]
    unfold kMaxHeight at *
    omega
  have hcnt : (midNodes S (bOf S 0) (some key)).length ≤ S.nodes.length := by
    unfold midNodes
    exact Nat.le_trans (List.length_filter_le ..) (by rw [List.length_range])
  have hf : (midNodes S (bOf S 0) (some key)).length + (S.max_height - 1) + 1 ≤
      searchFuel S := by
    unfold searchFuel kMaxHeight at *
    omega
  obtain ⟨res, p, heq, hge, hlen, hup, hdown⟩ :=
    findGEAux_spec S key hWf (searchFuel S) 0 (S.max_height - 1)
      (List.replicate kMaxHeight 0) h0 (Or.inl rfl) hlv hf
      (by rw [List.length_replicate])
  refine ⟨res, p, heq, hge, hlen, ?_, ?_⟩
  · intro l hl
    exact hdown l (by omega)
  · intro l hl
    rw [hup l (by omega)]
    exact getD_replicate_zero ..

/-- Specification of FindLessThan: the real node of greatest key strictly
below the target, or the head when none exists. -/
def LtSpec (S : SkipList) (key : Int) (x : Nat) : Prop :=
  (x = 0 ∧ ∀ j, Real S j → ¬ keyOf S j < key) ∨
  (Real S x ∧ keyOf S x < key ∧
    ∀ j, Real S j → keyOf S j < key → keyOf S j ≤ keyOf S x)

/-- Specification of FindLast: the real node of greatest key, or the head
when the list is empty. -/
def LastSpec (S : SkipList) (x : Nat) : Prop :=
  (x = 0 ∧ ∀ j, ¬ Real S j) ∨
  (Real S x ∧ ∀ j, Real S j → keyOf S j ≤ keyOf S x)

theorem prevSpec0_ltSpec (S : SkipList) (hWf : Wf S) (key : Int) (x : Nat)
    (h : PrevSpec S key 0 x) : LtSpec S key x := by
  rcases h with ⟨h0, hall⟩ | ⟨hr, -, hk, hmin⟩
  · exact Or.inl ⟨h0, fun j hj => hall j (real_inChain0 S hWf j hj)⟩
  · exact Or.inr ⟨hr, hk, fun j hj hjk => hmin j (real_inChain0 S hWf j hj) hjk⟩

/-- Main correctness lemma for the FindLessThan loop. -/
theorem findLTAux_spec (S : SkipList) (key : Int) (hWf : Wf S) :
    ∀ (fuel x level : Nat),
      x < S.nodes.length →
      (x = 0 ∨ (1 ≤ x ∧ keyOf S x < key)) →
      level < heightOf S x →
      (midNodes S (bOf S x) (some key)).length + level + 1 ≤ fuel →
      ∃ r, findLTAux S key fuel x level = some r ∧ LtSpec S key r := by
  intro fuel
  induction fuel with
  | zero => intro x level _ _ _ hf; omega
  | succ fuel ih =>
      intro x level hx hxk hlv hf
      cases hcond : ltStop S key (nodeNext S x level) with
      | true =>
          have hstop : ∀ m, nodeNext S x level = some m → ¬ keyOf S m < key := by
            intro m hm hlt
            rw [hm] at hcond
            rw [ltStop_some_iff] at hcond
            omega
          by_cases hl0 : level = 0
          · subst hl0
            refine ⟨x, ?_, prevSpec0_ltSpec S hWf key x
              (stop_prevSpec S key x 0 hWf hx hxk hlv hstop)⟩
            simp only [findLTAux]
            rw [hcond, if_pos rfl]
            simp
          · have hlv' : level - 1 < heightOf S x := by omega
            obtain ⟨r, heq, hspec⟩ := ih x (level - 1) hx hxk hlv' (by omega)
            refine ⟨r, ?_, hspec⟩
            simp only [findLTAux]
            rw [hcond, if_pos rfl, if_neg hl0]
            exact heq
      | false =>
          obtain ⟨m, hnx⟩ : ∃ m, nodeNext S x level = some m := by
            cases hnx : nodeNext S x level with
            | none =>
                rw [hnx] at hcond
                exact absurd hcond (by simp [ltStop])
            | some m => exact ⟨m, rfl⟩
          have hmk : keyOf S m < key := by
            rw [hnx] at hcond
            have : ¬ key ≤ keyOf S m := by
              intro hle
              rw [(ltStop_some_iff S key m).mpr hle] at hcond
              exact absurd hcond (by simp)
            omega
          have hns := hWf.links x level hx hlv
          rw [hnx] at hns
          obtain ⟨⟨⟨hm1, hm2⟩, hmh⟩, hma, hmm⟩ := hns
          have hmmem : m ∈ midNodes S (bOf S x) (some key) := by
            rw [mem_midNodes]
            refine ⟨⟨hm1, hm2⟩, (after_iff_aboveB S x m).mp hma, ?_⟩
            unfold belowB
            rw [decide_eq_true_iff]
            exact hmk
          have hcount := midNodes_advance_lt S (bOf S x) (some key) m hmmem
          have hbm : bOf S m = some (keyOf S m) := by
            unfold bOf
            rw [if_neg (by omega)]
          obtain ⟨r, heq, hspec⟩ := ih m level hm2 (Or.inr ⟨hm1, hmk⟩) hmh
            (by rw [hbm]; omega)
          refine ⟨r, ?_, hspec⟩
          simp only [findLTAux]
          rw [hcond, if_neg (by simp), hnx]
          exact heq

/-- FindLessThan correctness under the invariant. -/
theorem FindLessThan_spec (S : SkipList) (key : Int) (hWf : Wf S) :
    ∃ r, FindLessThan S key = some r ∧ LtSpec S key r := by
  unfold FindLessThan
  have hmax := hWf.max_pos
  have hmax2 := hWf.max_le
  have hlv : S.max_height - 1 < heightOf S 0 := by
    rw [hWf.head_height]
    unfold kMaxHeight at *
    omega
  have hcnt : (midNodes S (bOf S 0) (some key)).length ≤ S.nodes.length := by
    unfold midNodes
    exact Nat.le_trans (List.length_filter_le ..) (by rw [List.length_range])
  exact findLTAux_spec S key hWf (searchFuel S) 0 (S.max_height - 1) hWf.head_lt
    (Or.inl rfl) hlv (by unfold searchFuel kMaxHeight at *; omega)

/-- Main correctness lemma for the FindLast loop. -/
theorem findLastAux_spec (S : SkipList) (hWf : Wf S) :
    ∀ (fuel x level : Nat),
      x < S.nodes.length →
      level < heightOf S x →
      (midNodes S (bOf S x) none).length + level + 1 ≤ fuel →
      ∃ r, findLastAux S fuel x level = some r ∧
        (x = 0 ∨ 1 ≤ x → LastSpec S r) ∧
        (1 ≤ x → ∃ _hr : Real S r, keyOf S x ≤ keyOf S r) := by
  intro fuel
  induction fuel with
  | zero => intro x level _ _ hf; omega
  | succ fuel ih =>
      intro x level hx hlv hf
      cases hnx : nodeNext S x level with
      | none =>
          have hns := hWf.links x level hx hlv
          rw [hnx] at hns
          by_cases hl0 : level = 0
          · subst hl0
            refine ⟨x, ?_, ?_, ?_⟩
            · simp only [findLastAux]
              rw [hnx]
              simp
            · intro _
              by_cases hx0 : x = 0
              · subst hx0
                left
                refine ⟨rfl, ?_⟩
                intro j hj
                exact hns j (real_inChain0 S hWf j hj) (Or.inl rfl)
              · right
                refine ⟨⟨by omega, hx⟩, ?_⟩
                intro j hj
                by_contra hc
                push_neg at hc
                exact hns j (real_inChain0 S hWf j hj) (Or.inr hc)
            · intro hx1
              exact ⟨⟨hx1, hx⟩, le_refl _⟩
          · have hlv' : level - 1 < heightOf S x := by omega
            obtain ⟨r, heq, hspec, hkey⟩ := ih x (level - 1) hx hlv' (by omega)
            refine ⟨r, ?_, hspec, hkey⟩
            simp only [findLastAux]
            rw [hnx, if_neg hl0]
            exact heq
      | some m =>
          have hns := hWf.links x level hx hlv
          rw [hnx] at hns
          obtain ⟨⟨⟨hm1, hm2⟩, hmh⟩, hma, hmm⟩ := hns
          have hmmem : m ∈ midNodes S (bOf S x) none := by
            rw [mem_midNodes]
            exact ⟨⟨hm1, hm2⟩, (after_iff_aboveB S x m).mp hma, rfl⟩
          have hcount := midNodes_advance_lt S (bOf S x) none m hmmem
          have hbm : bOf S m = some (keyOf S m) := by
            unfold bOf
            rw [if_neg (by omega)]
          obtain ⟨r, heq, hspec, hkey⟩ := ih m level hm2 hmh (by rw [hbm]; omega)
          obtain ⟨hrr, hrk⟩ := hkey hm1
          refine ⟨r, ?_, fun _ => hspec (Or.inr hm1), ?_⟩
          · simp only [findLastAux]
            rw [hnx]
            exact heq
          · intro hx1
            refine ⟨hrr, ?_⟩
            rcases hma with hma | hma
            · omega
            · omega

/-- FindLast correctness under the invariant. -/
theorem FindLast_spec (S : SkipList) (hWf : Wf S) :
    ∃ r, FindLast S = some r ∧ LastSpec S r := by
  unfold FindLast
  have hmax := hWf.max_pos
  have hmax2 := hWf.max_le
  have hlv : S.max_height - 1 < heightOf S 0 := by
    rw [hWf.head_height]
    unfold kMaxHeight at *
    omega
  have hcnt : (midNodes S (bOf S 0) none).length ≤ S.nodes.length := by
    unfold midNodes
    exact Nat.le_trans (List.length_filter_le ..) (by rw [List.length_range])
  obtain ⟨r, heq, hspec, -⟩ := findLastAux_spec S hWf (searchFuel S) 0
    (S.max_height - 1) hWf.head_lt hlv
    (by unfold searchFuel kMaxHeight at *; omega)
  exact ⟨r, heq, hspec (Or.inl rfl)⟩

/-! ### RandomHeight bounds -/

theorem randomHeightGo_bounds (rnd : Nat → Bool) :
    ∀ (fuel idx height : Nat), 1 ≤ height → height ≤ kMaxHeight →
      1 ≤ (randomHeightGo rnd idx height fuel).1 ∧
      (randomHeightGo rnd idx height fuel).1 ≤ kMaxHeight := by
  intro fuel
  induction fuel with
  | zero => intro idx height h1 h2; exact ⟨h1, h2⟩
  | succ fuel ih =>
      intro idx height h1 h2
      simp only [randomHeightGo]
      by_cases hlt : height < kMaxHeight
      · rw [if_pos hlt]
        by_cases hr : rnd idx = true
        · rw [if_pos hr]
          exact ih (idx + 1) (height + 1) (by omega) (by omega)
        · rw [if_neg hr]
          exact ⟨h1, h2⟩
      · rw [if_neg hlt]
        exact ⟨h1, h2⟩

/-- The sampled height always lies in [1, kMaxHeight]. -/
theorem RandomHeight_bounds (S : SkipList) :
    1 ≤ (RandomHeight S).1 ∧ (RandomHeight S).1 ≤ kMaxHeight :=
  randomHeightGo_bounds S.rnd kMaxHeight S.rndIdx 1 (le_refl 1)
    (by unfold kMaxHeight; omega)

/-! ### List-surgery helpers for Insert -/

/-- keyOf on a raw node list. -/
def keyOfL (ns : List Node) (i : Nat) : Int := (getNode ns i).key

/-- heightOf on a raw node list. -/
def heightOfL (ns : List Node) (i : Nat) : Nat := (getNode ns i).next.length

theorem getNode_append_lt (ns : List Node) (nd : Node) (j : Nat)
    (h : j < ns.length) : getNode (ns ++ [nd]) j = getNode ns j := by
  unfold getNode
  rw [List.getD_eq_getElem?_getD, List.getD_eq_getElem?_getD,
    List.getElem?_append, if_pos h]

theorem getNode_append_self (ns : List Node) (nd : Node) :
    getNode (ns ++ [nd]) ns.length = nd := by
  unfold getNode
  rw [List.getD_eq_getElem?_getD, List.getElem?_append_right (le_refl _)]
  simp

theorem getNode_ge (ns : List Node) (j : Nat) (h : ns.length ≤ j) :
    getNode ns j = { key := 0, next := [] } := by
  unfold getNode
  rw [List.getD_eq_default]
  omega

theorem setNextL_length (ns : List Node) (j l : Nat) (v : Option Nat) :
    (setNextL ns j l v).length = ns.length := by
  unfold setNextL
  exact List.length_set ..

theorem getNode_setNextL_ne (ns : List Node) (j l : Nat) (v : Option Nat)
    (i : Nat) (h : i ≠ j) :
    getNode (setNextL ns j l v) i = getNode ns i := by
  unfold setNextL getNode
  rw [List.getD_eq_getElem?_getD, List.getD_eq_getElem?_getD,
    List.getElem?_set]
  rw [if_neg (show ¬ j = i by omega), List.getD_eq_getElem?_getD]

theorem getNode_setNextL_self (ns : List Node) (j l : Nat) (v : Option Nat)
    (h : j < ns.length) :
    getNode (setNextL ns j l v) j =
      { key := (getNode ns j).key, next := (getNode ns j).next.set l v } := by
  unfold setNextL getNode
  rw [List.getD_eq_getElem?_getD, List.getElem?_set]
  rw [if_pos rfl, if_pos h]
  rfl

theorem keyOfL_setNextL (ns : List Node) (j l : Nat) (v : Option Nat)
    (i : Nat) : keyOfL (setNextL ns j l v) i = keyOfL ns i := by
  by_cases hij : i = j
  · subst hij
    by_cases hi : i < ns.length
    · unfold keyOfL
      rw [getNode_setNextL_self ns i l v hi]
    · unfold keyOfL setNextL
      rw [List.set_eq_of_length_le (by omega)]
  · unfold keyOfL
    rw [getNode_setNextL_ne ns j l v i hij]

theorem heightOfL_setNextL (ns : List Node) (j l : Nat) (v : Option Nat)
    (i : Nat) : heightOfL (setNextL ns j l v) i = heightOfL ns i := by
  by_cases hij : i = j
  · subst hij
    by_cases hi : i < ns.length
    · unfold heightOfL
      rw [getNode_setNextL_self ns i l v hi]
      exact List.length_set ..
    · unfold heightOfL setNextL
      rw [List.set_eq_of_length_le (by omega)]
  · unfold heightOfL
    rw [getNode_setNextL_ne ns j l v i hij]

/-- getD-of-set lemmas at Option values. -/
theorem getD_set_self_opt (l : List (Option Nat)) (i : Nat) (x : Option Nat)
    (d : Option Nat) (h : i < l.length) : (l.set i x).getD i d = x := by
  simp [List.getD_eq_getElem?_getD, List.getElem?_set, h]

theorem getD_set_ne_opt (l : List (Option Nat)) (i j : Nat) (x : Option Nat)
    (d : Option Nat) (h : i ≠ j) : (l.set i x).getD j d = l.getD j d := by
  simp [List.getD_eq_getElem?_getD, List.getElem?_set, h]

theorem listNext_setNextL_self (ns : List Node) (j l : Nat) (v : Option Nat)
    (hj : j < ns.length) (hl : l < (getNode ns j).next.length) :
    listNext (setNextL ns j l v) j l = v := by
  unfold listNext
  rw [getNode_setNextL_self ns j l v hj]
  exact getD_set_self_opt _ _ _ _ hl

theorem listNext_setNextL_ne (ns : List Node) (j l : Nat) (v : Option Nat)
    (i l' : Nat) (h : i ≠ j ∨ l' ≠ l) :
    listNext (setNextL ns j l v) i l' = listNext ns i l' := by
  by_cases hij : i = j
  · subst hij
    have hll : l' ≠ l := by tauto
    by_cases hi : i < ns.length
    · unfold listNext
      rw [getNode_setNextL_self ns i l v hi]
      exact getD_set_ne_opt _ _ _ _ _ (by omega)
    · unfold listNext setNextL
      rw [List.set_eq_of_length_le (by omega)]
  · unfold listNext
    rw [getNode_setNextL_ne ns j l v i hij]

/-- Entry view of the head-extension loop
(for i in [lo, lo+cnt): prev[i] = head). -/
theorem foldSetZero_getD (cnt : Nat) :
    ∀ (p0 : List Nat) (lo l : Nat),
      ((List.range' lo cnt).foldl (fun p i => p.set i 0) p0).getD l 0 =
        if lo ≤ l ∧ l < lo + cnt then 0 else p0.getD l 0 := by
  induction cnt with
  | zero =>
      intro p0 lo l
      rw [if_neg (by omega)]
      rfl
  | succ cnt ih =>
      intro p0 lo l
      rw [List.range'_succ, List.foldl_cons, ih]
      by_cases hin : lo + 1 ≤ l ∧ l < lo + 1 + cnt
      · rw [if_pos hin, if_pos (by omega)]
      · rw [if_neg hin]
        by_cases hl : l = lo
        · subst hl
          rw [if_pos (by omega)]
          by_cases hlen : l < p0.length
          · exact getD_set_self p0 l 0 0 hlen
          · rw [List.set_eq_of_length_le (by omega), List.getD_eq_default]
            omega
        · rw [getD_set_ne p0 lo l 0 0 (by omega), if_neg (by omega)]

/-- Characterization of the linking loop of Insert: after k iterations,
levels below k carry the new node spliced between its predecessor and the
predecessor's old successor; everything else is untouched. -/
theorem linkFold_spec (nodes0 : List Node) (n : Nat) (prev : List Nat)
    (h : Nat) (hn : nodes0.length = n + 1)
    (hp_lt : ∀ i, i < h → prev.getD i 0 < n)
    (hp_h : ∀ i, i < h → i < heightOfL nodes0 (prev.getD i 0))
    (hh : h ≤ heightOfL nodes0 n) :
    ∀ k, k ≤ h →
      ((List.range k).foldl (linkStep n prev) nodes0).length = n + 1 ∧
      (∀ j, keyOfL ((List.range k).foldl (linkStep n prev) nodes0) j =
        keyOfL nodes0 j) ∧
      (∀ j, heightOfL ((List.range k).foldl (linkStep n prev) nodes0) j =
        heightOfL nodes0 j) ∧
      (∀ j l, listNext ((List.range k).foldl (linkStep n prev) nodes0) j l =
        if l < k ∧ j = n then listNext nodes0 (prev.getD l 0) l
        else if l < k ∧ j = prev.getD l 0 then some n
        else listNext nodes0 j l) := by
  intro k
  induction k with
  | zero =>
      intro _
      refine ⟨hn, fun j => rfl, fun j => rfl, ?_⟩
      intro j l
      rw [if_neg (by omega), if_neg (by omega)]
      rfl
  | succ k ih =>
      intro hk
      obtain ⟨hAlen, hAkey, hAheight, hAnext⟩ := ih (by omega)
      rw [List.range_succ, List.foldl_append, List.foldl_cons, List.foldl_nil]
      set A := (List.range k).foldl (linkStep n prev) nodes0 with hA
      rw [linkStep_eq]
      set pk := prev.getD k 0 with hpk
      have hpkn : pk < n := hp_lt k (by omega)
      have hread : listNext A pk k = listNext nodes0 pk k := by
        rw [hAnext pk k, if_neg (by omega), if_neg (by omega)]
      have hhn : heightOfL A n = heightOfL nodes0 n := hAheight n
      have hhp : heightOfL A pk = heightOfL nodes0 pk := hAheight pk
      set B := setNextL A n k (listNext A pk k) with hB
      have hBlen : B.length = n + 1 := by
        rw [hB, setNextL_length, hAlen]
      have hBkey : ∀ j, keyOfL B j = keyOfL A j := fun j => keyOfL_setNextL ..
      have hBheight : ∀ j, heightOfL B j = heightOfL A j :=
        fun j => heightOfL_setNextL ..
      set C := setNextL B pk k (some n) with hC
      have hClen : C.length = n + 1 := by
        rw [hC, setNextL_length, hBlen]
      refine ⟨hClen, ?_, ?_, ?_⟩
      · intro j
        rw [hC, keyOfL_setNextL, hBkey, hAkey]
      · intro j
        rw [hC, heightOfL_setNextL, hBheight, hAheight]
      · intro j l
        by_cases hlk : l = k
        · subst hlk
          by_cases hjn : j = n
          · rw [hjn]
            have h1 : n < A.length := by omega
            have h2 : l < (getNode A n).next.length := by
              show l < heightOfL A n
              rw [hAheight n]
              omega
            rw [hC, listNext_setNextL_ne _ _ _ _ _ _ (Or.inl (by omega))]
            rw [hB, listNext_setNextL_self A n l _ h1 h2]
            rw [hread, if_pos ⟨by omega, rfl⟩]
          · by_cases hjp : j = pk
            · rw [hjp]
              have h1 : pk < B.length := by omega
              have h2 : l < (getNode B pk).next.length := by
                show l < heightOfL B pk
                rw [hBheight pk, hAheight pk]
                exact hp_h l (by omega)
              rw [hC, listNext_setNextL_self B pk l (some n) h1 h2]
              rw [if_neg (by omega), if_pos ⟨by omega, rfl⟩]
            · rw [hC, listNext_setNextL_ne _ _ _ _ _ _ (Or.inl hjp)]
              rw [hB, listNext_setNextL_ne _ _ _ _ _ _ (Or.inl hjn)]
              rw [hAnext j l, if_neg (by omega), if_neg (by omega)]
              rw [if_neg (by omega), if_neg (by omega)]
        · rw [hC, listNext_setNextL_ne _ _ _ _ _ _ (Or.inr hlk)]
          rw [hB, listNext_setNextL_ne _ _ _ _ _ _ (Or.inr hlk)]
          rw [hAnext j l]
          by_cases hjn : l < k ∧ j = n
          · rw [if_pos hjn, if_pos ⟨by omega, hjn.2⟩]
          · rw [if_neg hjn]
            by_cases hjp : l < k ∧ j = prev.getD l 0
            · rw [if_pos hjp, if_neg (by
                intro hcon
                exact hjn ⟨by omega, hcon.2⟩), if_pos ⟨by omega, hjp.2⟩]
            · rw [if_neg hjp, if_neg (by
                intro hcon
                exact hjn ⟨by omega, hcon.2⟩), if_neg (by
                intro hcon
                exact hjp ⟨by omega, hcon.2⟩)]

/-- Above max_height there are no chain nodes, so the head is a correct
predecessor. -/
theorem prevSpec_high (S : SkipList) (K : Int) (l : Nat) (hWf : Wf S)
    (hl : S.max_height ≤ l) : PrevSpec S K l 0 := by
  left
  refine ⟨rfl, ?_⟩
  intro j hj _
  have h1 := hWf.height_le j hj.1
  have h2 := hj.2
  omega

/-- Full characterization of Insert on a well-formed list: the new node
sits at index n with the sampled height, linked below its height between
the per-level predecessor and that predecessor's old successor; all other
state is unchanged. -/
theorem Insert_char (S : SkipList) (K : Int) (hWf : Wf S) :
    ∃ prev : List Nat,
      (∀ l, l < kMaxHeight → PrevSpec S K l (prev.getD l 0)) ∧
      (∀ l, S.max_height ≤ l → prev.getD l 0 = 0) ∧
      (Insert S K).nodes.length = S.nodes.length + 1 ∧
      (∀ j, keyOf (Insert S K) j =
        if j = S.nodes.length then K else keyOf S j) ∧
      (∀ j, heightOf (Insert S K) j =
        if j = S.nodes.length then (RandomHeight S).1 else heightOf S j) ∧
      (Insert S K).max_height = max S.max_height (RandomHeight S).1 ∧
      (∀ j l, nodeNext (Insert S K) j l =
        if l < (RandomHeight S).1 ∧ j = S.nodes.length then
          nodeNext S (prev.getD l 0) l
        else if l < (RandomHeight S).1 ∧ j = prev.getD l 0 then
          some S.nodes.length
        else nodeNext S j l) ∧
      (Insert S K).rnd = S.rnd ∧ (Insert S K).max_height ≤ kMaxHeight ∧
      S.max_height ≤ (Insert S K).max_height := by
  obtain ⟨res, p0, hfind, hge, hp0len, hprev0, hzero0⟩ :=
    FindGreaterOrEqual_spec S K hWf
  obtain ⟨hh1, hh2⟩ := RandomHeight_bounds S
  have hmax1 := hWf.max_pos
  have hmax2 := hWf.max_le
  set h := (RandomHeight S).1 with hdefh
  set n := S.nodes.length with hdefn
  set prev := (if S.max_height < h then
      (List.range' S.max_height (h - S.max_height)).foldl
        (fun p i => p.set i 0) p0
    else p0) with hprevdef
  have hprev_entry : ∀ l, prev.getD l 0 =
      if S.max_height ≤ l ∧ l < h then 0 else p0.getD l 0 := by
    intro l
    by_cases hc : S.max_height < h
    · rw [hprevdef, if_pos hc, foldSetZero_getD]
      by_cases hin : S.max_height ≤ l ∧ l < S.max_height + (h - S.max_height)
      · rw [if_pos hin, if_pos (by omega)]
      · rw [if_neg hin, if_neg (by omega)]
    · rw [hprevdef, if_neg hc, if_neg (by omega)]
  have hPrevAll : ∀ l, l < kMaxHeight → PrevSpec S K l (prev.getD l 0) := by
    intro l hl
    rw [hprev_entry l]
    by_cases hc : S.max_height ≤ l ∧ l < h
    · rw [if_pos hc]
      exact prevSpec_high S K l hWf hc.1
    · rw [if_neg hc]
      by_cases hlm : l < S.max_height
      · exact hprev0 l hlm
      · rw [hzero0 l (by omega)]
        exact prevSpec_high S K l hWf (by omega)
  have hzero_prev : ∀ l, S.max_height ≤ l → prev.getD l 0 = 0 := by
    intro l hl
    rw [hprev_entry l]
    by_cases hc : S.max_height ≤ l ∧ l < h
    · rw [if_pos hc]
    · rw [if_neg hc]
      exact hzero0 l hl
  set nodes0 := S.nodes ++ [{ key := K, next := List.replicate h none }] with hnodes0
  have hn : nodes0.length = n + 1 := by
    rw [hnodes0, List.length_append]
    rfl
  have hH0 : heightOfL nodes0 n = h := by
    unfold heightOfL
    rw [hnodes0, hdefn, getNode_append_self]
    exact List.length_replicate ..
  have hkey0 : ∀ j, keyOfL nodes0 j = if j = n then K else keyOf S j := by
    intro j
    by_cases hj : j = n
    · rw [if_pos hj, hj]
      unfold keyOfL
      rw [hnodes0, hdefn, getNode_append_self]
    · rw [if_neg hj]
      by_cases hj2 : j < n
      · unfold keyOfL keyOf
        rw [hnodes0, getNode_append_lt _ _ _ hj2]
      · unfold keyOfL keyOf
        rw [getNode_ge _ _ (by omega), getNode_ge _ _ (by omega)]
  have hheight0 : ∀ j, heightOfL nodes0 j = if j = n then h else heightOf S j := by
    intro j
    by_cases hj : j = n
    · rw [if_pos hj, hj]
      exact hH0
    · rw [if_neg hj]
      by_cases hj2 : j < n
      · unfold heightOfL heightOf
        rw [hnodes0, getNode_append_lt _ _ _ hj2]
      · unfold heightOfL heightOf
        rw [getNode_ge _ _ (by omega), getNode_ge _ _ (by omega)]
  have hp_lt : ∀ i, i < h → prev.getD i 0 < n := by
    intro i hi
    rcases hPrevAll i (by omega) with ⟨h0, -⟩ | ⟨hr, -, -, -⟩
    · rw [h0]
      exact hWf.head_lt
    · exact hr.2
  have hp_h : ∀ i, i < h → i < heightOfL nodes0 (prev.getD i 0) := by
    intro i hi
    have hlt := hp_lt i hi
    rw [hheight0, if_neg (by omega)]
    rcases hPrevAll i (by omega) with ⟨h0, -⟩ | ⟨-, hh', -, -⟩
    · rw [h0]
      have := hWf.head_height
      unfold heightOf kMaxHeight at *
      omega
    · exact hh'
  obtain ⟨hlen1, hkey1, hheight1, hnext1⟩ :=
    linkFold_spec nodes0 n prev h hn hp_lt hp_h (by rw [hH0]) h (le_refl h)
  have hIns : Insert S K =
      { nodes := (List.range h).foldl (linkStep n prev) nodes0,
        max_height := if S.max_height < h then h else S.max_height,
        rnd := S.rnd, rndIdx := (RandomHeight S).2 } := by
    unfold Insert
    rw [hfind]
  have hreplicate : ∀ l', (List.replicate h (none : Option Nat)).getD l' none =
      none := by
    intro l'
    by_cases hl' : l' < h
    · simp [List.getD_eq_getElem?_getD, List.getElem?_replicate, hl']
    · rw [List.getD_eq_default]
      rw [List.length_replicate]
      omega
  have hnodeNextN : ∀ l', nodeNext S n l' = none := by
    intro l'
    unfold nodeNext listNext
    rw [getNode_ge _ _ (by omega)]
    rfl
  have hlist0 : ∀ z l', listNext nodes0 z l' = if z = n ∧ h ≤ l' then none
      else if z = n then none else nodeNext S z l' := by
    intro z l'
    by_cases hz : z = n
    · rw [hz]
      unfold listNext
      rw [hnodes0, hdefn, getNode_append_self]
      by_cases hl' : h ≤ l'
      · rw [if_pos ⟨rfl, hl'⟩]
        exact hreplicate l'
      · rw [if_neg (by tauto), if_pos rfl]
        exact hreplicate l'
    · rw [if_neg (by tauto), if_neg hz]
      by_cases hz2 : z < n
      · unfold listNext nodeNext
        unfold listNext
        rw [hnodes0, getNode_append_lt _ _ _ hz2]
      · unfold listNext nodeNext
        unfold listNext
        rw [getNode_ge _ _ (by omega), getNode_ge _ _ (by omega)]
  refine ⟨prev, hPrevAll, hzero_prev, ?_, ?_, ?_, ?_, ?_, ?_, ?_, ?_⟩
  · rw [hIns]
    exact hlen1
  · intro j
    have : keyOf (Insert S K) j = keyOfL (Insert S K).nodes j := rfl
    rw [this, hIns]
    rw [hkey1 j, hkey0 j]
  · intro j
    have : heightOf (Insert S K) j = heightOfL (Insert S K).nodes j := rfl
    rw [this, hIns]
    rw [hheight1 j, hheight0 j]
  · rw [hIns]
    show (if S.max_height < h then h else S.max_height) = max S.max_height h
    split_ifs <;> omega
  · intro j l
    have : nodeNext (Insert S K) j l = listNext (Insert S K).nodes j l := rfl
    rw [this, hIns]
    show listNext ((List.range h).foldl (linkStep n prev) nodes0) j l = _
    rw [hnext1 j l]
    by_cases hc1 : l < h ∧ j = n
    · rw [if_pos hc1, if_pos hc1]
      unfold listNext nodeNext
      unfold listNext
      rw [hnodes0, getNode_append_lt _ _ _ (hp_lt l hc1.1)]
    · rw [if_neg hc1, if_neg hc1]
      by_cases hc2 : l < h ∧ j = prev.getD l 0
      · rw [if_pos hc2, if_pos hc2]
      · rw [if_neg hc2, if_neg hc2]
        rw [hlist0 j l]
        by_cases hz : j = n
        · have hlh : h ≤ l := by
            rcases Nat.lt_or_ge l h with hlt | hge
            · exact absurd ⟨hlt, hz⟩ hc1
            · exact hge
          rw [if_pos ⟨hz, hlh⟩, hz, hnodeNextN l]
        · rw [if_neg (by tauto), if_neg hz]
  · rw [hIns]
  · rw [hIns]
    show (if S.max_height < h then h else S.max_height) ≤ kMaxHeight
    split_ifs <;> omega
  · rw [hIns]
    show S.max_height ≤ (if S.max_height < h then h else S.max_height)
    split_ifs <;> omega

/-- Insert preserves the well-formedness invariant when the inserted key
is fresh (the documented precondition of Insert). -/
theorem Insert_Wf (S : SkipList) (K : Int) (hWf : Wf S)
    (hfresh : ∀ j, Real S j → keyOf S j ≠ K) : Wf (Insert S K) := by
  obtain ⟨prev, hPrevAll, hzero, hlen, hkey, hheight, hmax, hnext, hrnd,
    hmaxle, hmaxge⟩ := Insert_char S K hWf
  obtain ⟨hh1, hh2⟩ := RandomHeight_bounds S
  have hn1 : 1 ≤ S.nodes.length := hWf.head_lt
  set SI := Insert S K with hSI
  set n := S.nodes.length with hdefn
  set h := (RandomHeight S).1 with hdefh
  have hkeyn : keyOf SI n = K := by
    rw [hkey n, if_pos rfl]
  have hkeyo : ∀ j, j ≠ n → keyOf SI j = keyOf S j := by
    intro j hj
    rw [hkey j, if_neg hj]
  have hhn : heightOf SI n = h := by
    rw [hheight n, if_pos rfl]
  have hho : ∀ j, j ≠ n → heightOf SI j = heightOf S j := by
    intro j hj
    rw [hheight j, if_neg hj]
  have hrealn : Real SI n := by
    refine ⟨hn1, ?_⟩
    rw [hlen]
    omega
  have hrealo : ∀ j, Real SI j → j ≠ n → Real S j := by
    intro j hj hne
    have h2 := hj.2
    rw [hlen] at h2
    exact ⟨hj.1, by omega⟩
  have hrealup : ∀ j, Real S j → Real SI j := by
    intro j hj
    refine ⟨hj.1, ?_⟩
    rw [hlen]
    have := hj.2
    omega
  have hrealne : ∀ j, Real S j → j ≠ n := by
    intro j hj
    have := hj.2
    omega
  have hchainup : ∀ l j, InChain S l j → InChain SI l j := by
    intro l j hj
    refine ⟨hrealup j hj.1, ?_⟩
    rw [hho j (hrealne j hj.1)]
    exact hj.2
  have hchaino : ∀ l j, InChain SI l j → j ≠ n → InChain S l j := by
    intro l j hj hne
    refine ⟨hrealo j hj.1 hne, ?_⟩
    have := hj.2
    rw [hho j hne] at this
    exact this
  -- facts about the per-level predecessor below the sampled height
  have hplt : ∀ l, l < h → prev.getD l 0 < n := by
    intro l hl
    rcases hPrevAll l (by omega) with ⟨h0, -⟩ | ⟨hr, -, -, -⟩
    · rw [h0]
      omega
    · exact hr.2
  have hpchain : ∀ l, l < h → InChain S l (prev.getD l 0) ∨ prev.getD l 0 = 0 := by
    intro l hl
    rcases hPrevAll l (by omega) with ⟨h0, -⟩ | ⟨hr, hht, -, -⟩
    · exact Or.inr h0
    · exact Or.inl ⟨hr, hht⟩
  refine ⟨?_, ?_, ?_, ?_, ?_, ?_, ?_, ?_⟩
  · rw [hlen]
    omega
  · rw [hho 0 (by omega)]
    exact hWf.head_height
  · rw [hmax]
    have := hWf.max_pos
    omega
  · exact hmaxle
  · intro j hj
    by_cases hjn : j = n
    · rw [hjn, hhn]
      omega
    · rw [hho j hjn]
      exact hWf.height_pos j (hrealo j hj hjn)
  · intro j hj
    rw [hmax]
    by_cases hjn : j = n
    · rw [hjn, hhn]
      omega
    · rw [hho j hjn]
      have := hWf.height_le j (hrealo j hj hjn)
      omega
  · intro i j hi hj heq
    by_cases hin : i = n
    · by_cases hjn : j = n
      · rw [hin, hjn]
      · rw [hin, hkeyn] at heq
        rw [hkeyo j hjn] at heq
        exact absurd heq.symm (hfresh j (hrealo j hj hjn))
    · by_cases hjn : j = n
      · rw [hjn, hkeyn] at heq
        rw [hkeyo i hin] at heq
        exact absurd heq (hfresh i (hrealo i hi hin))
      · rw [hkeyo i hin, hkeyo j hjn] at heq
        exact hWf.distinct i j (hrealo i hi hin) (hrealo j hj hjn) heq
  · -- the links
    intro i l hi hlv
    rw [hlen] at hi
    rw [hnext i l]
    by_cases hc1 : l < h ∧ i = n
    · -- the new node's link at level l: the predecessor's old successor
      rw [if_pos hc1]
      obtain ⟨hlh, hin⟩ := hc1
      have hps := hPrevAll l (by omega)
      have hplt' := hplt l hlh
      have hplv : l < heightOf S (prev.getD l 0) := by
        rcases hps with ⟨h0, -⟩ | ⟨-, hht, -, -⟩
        · rw [h0]
          have := hWf.head_height
          unfold kMaxHeight at *
          omega
        · exact hht
      have hNS := hWf.links (prev.getD l 0) l hplt' hplv
      cases hv : nodeNext S (prev.getD l 0) l with
      | none =>
          rw [hv] at hNS
          intro j hj haft
          rw [hin] at haft
          by_cases hjn : j = n
          · rw [hjn] at haft
            rcases haft with h0 | hlt
            · omega
            · rw [hkeyn] at hlt
              omega
          · have hjc := hchaino l j hj hjn
            rcases haft with h0 | hlt
            · omega
            · rw [hkeyn, hkeyo j hjn] at hlt
              refine hNS j hjc ?_
              rcases hps with ⟨h0', hnone⟩ | ⟨hpr, -, hpk, -⟩
              · exact Or.inl h0'
              · right
                omega
      | some m =>
          rw [hv] at hNS
          obtain ⟨⟨⟨hm1, hm2⟩, hmh⟩, hma, hmm⟩ := hNS
          have hmne : m ≠ n := by omega
          have hKm : K < keyOf S m := by
            have hne := hfresh m ⟨hm1, hm2⟩
            rcases Int.lt_or_lt_of_ne hne with hlt | hlt
            · exfalso
              rcases hps with ⟨h0', hnone⟩ | ⟨hpr, hpht, hpk, hpmax⟩
              · exact hnone m ⟨⟨hm1, hm2⟩, hmh⟩ hlt
              · have hple := hpmax m ⟨⟨hm1, hm2⟩, hmh⟩ hlt
                rcases hma with h0 | hgt
                · have := hpr.1
                  omega
                · omega
            · exact hlt
          refine ⟨⟨⟨hm1, by rw [hlen]; omega⟩, ?_⟩, ?_, ?_⟩
          · rw [hho m hmne]
            exact hmh
          · rw [hin]
            right
            rw [hkeyn, hkeyo m hmne]
            exact hKm
          · intro j hj haft
            rw [hin] at haft
            by_cases hjn : j = n
            · rw [hjn] at haft
              rcases haft with h0 | hlt
              · omega
              · rw [hkeyn] at hlt
                omega
            · have hjc := hchaino l j hj hjn
              rw [hkeyo m hmne, hkeyo j hjn]
              have hKj : K < keyOf S j := by
                rcases haft with h0 | hlt
                · omega
                · rw [hkeyn, hkeyo j hjn] at hlt
                  exact hlt
              refine hmm j hjc ?_
              rcases hps with ⟨h0', hnone⟩ | ⟨hpr, -, hpk, -⟩
              · exact Or.inl h0'
              · right
                omega
    · rw [if_neg hc1]
      by_cases hc2 : l < h ∧ i = prev.getD l 0
      · -- the predecessor now points at the new node
        rw [if_pos hc2]
        obtain ⟨hlh, hip⟩ := hc2
        have hps := hPrevAll l (by omega)
        refine ⟨⟨hrealn, by rw [hhn]; exact hlh⟩, ?_, ?_⟩
        · rcases hps with ⟨h0, -⟩ | ⟨hpr, -, hpk, -⟩
          · left
            omega
          · right
            rw [hkeyn, hkeyo i (by rw [hip]; exact hrealne _ hpr), hip]
            exact hpk
        · intro j hj haft
          by_cases hjn : j = n
          · rw [hjn]
          · rw [hkeyn, hkeyo j hjn]
            have hjc := hchaino l j hj hjn
            by_contra hc
            push_neg at hc
            have hjK : keyOf S j < K := hc
            rcases hps with ⟨h0, hnone⟩ | ⟨hpr, -, hpk, hpmax⟩
            · exact hnone j hjc hjK
            · have hle := hpmax j hjc hjK
              rcases haft with h0' | hlt
              · rw [hip] at h0'
                have := hpr.1
                omega
              · rw [hkeyo j hjn, hkeyo i (by rw [hip]; exact hrealne _ hpr), hip] at hlt
                omega
      · -- untouched link
        rw [if_neg hc2]
        by_cases hin : i = n
        · -- above the new node's height: vacuous chain membership of n
          exfalso
          rw [hin, hhn] at hlv
          exact hc1 ⟨hlv, hin⟩
        · have hil : l < heightOf S i := by
            rw [hho i hin] at hlv
            exact hlv
          have hNS := hWf.links i l (by omega) hil
          by_cases hlh : l < h
          · -- level below the new height, i is not the predecessor
            have hip : i ≠ prev.getD l 0 := fun hc => hc2 ⟨hlh, hc⟩
            have hps := hPrevAll l (by omega)
            cases hv : nodeNext S i l with
            | none =>
                rw [hv] at hNS
                intro j hj haft
                by_cases hjn : j = n
                · -- show i cannot be before the new node
                  rw [hjn] at haft
                  have hi0 : i ≠ 0 := by
                    intro hi0
                    rcases hps with ⟨h0, -⟩ | ⟨hpr, hpht, hpk, -⟩
                    · rw [hi0] at hip
                      exact hip h0.symm
                    · exact hNS (prev.getD l 0) ⟨hpr, hpht⟩ (Or.inl hi0)
                  have hiK : ¬ keyOf S i < K := by
                    intro hiK
                    have hic : InChain S l i := ⟨⟨by omega, by omega⟩, hil⟩
                    rcases hps with ⟨h0, hnone⟩ | ⟨hpr, hpht, hpk, hpmax⟩
                    · exact hnone i hic hiK
                    · have hle := hpmax i hic hiK
                      have hne2 : keyOf S i ≠ keyOf S (prev.getD l 0) := fun heq2 =>
                        hip (hWf.distinct i (prev.getD l 0) ⟨by omega, by omega⟩ hpr heq2)
                      have hlt : keyOf S i < keyOf S (prev.getD l 0) := by omega
                      exact hNS (prev.getD l 0) ⟨hpr, hpht⟩ (Or.inr hlt)
                  rcases haft with h0 | hlt
                  · exact hi0 h0
                  · rw [hkeyn, hkeyo i hin] at hlt
                    exact hiK hlt
                · have hjc := hchaino l j hj hjn
                  refine hNS j hjc ?_
                  rcases haft with h0 | hlt
                  · exact Or.inl h0
                  · rw [hkeyo i hin, hkeyo j hjn] at hlt
                    exact Or.inr hlt
            | some m =>
                rw [hv] at hNS
                obtain ⟨⟨⟨hm1, hm2⟩, hmh⟩, hma, hmm⟩ := hNS
                have hmne : m ≠ n := by omega
                refine ⟨⟨⟨hm1, by rw [hlen]; omega⟩, by rw [hho m hmne]; exact hmh⟩,
                  ?_, ?_⟩
                · rcases hma with h0 | hlt
                  · exact Or.inl h0
                  · right
                    rw [hkeyo i hin, hkeyo m hmne]
                    exact hlt
                · intro j hj haft
                  by_cases hjn : j = n
                  · -- the new node, if after i, is not before m
                    rw [hjn, hkeyn, hkeyo m hmne]
                    by_contra hc
                    push_neg at hc
                    -- hc : K < keyOf S m
                    have hafter_ip : After S i (prev.getD l 0) ∧
                        InChain S l (prev.getD l 0) := by
                      rcases hps with ⟨h0, hnone⟩ | ⟨hpr, hpht, hpk, hpmax⟩
                      · exfalso
                        rw [hjn] at haft
                        rcases haft with h0' | hlt
                        · rw [h0'] at hip
                          exact hip h0.symm
                        · rw [hkeyn, hkeyo i hin] at hlt
                          have hic : InChain S l i := by
                            refine ⟨⟨?_, by omega⟩, hil⟩
                            by_contra hi0
                            push_neg at hi0
                            have : i = 0 := by omega
                            rw [this] at hip
                            exact hip h0.symm
                          exact hnone i hic hlt
                      · refine ⟨?_, ⟨hpr, hpht⟩⟩
                        rw [hjn] at haft
                        rcases haft with h0' | hlt
                        · exact Or.inl h0'
                        · by_cases hi0 : i = 0
                          · exact Or.inl hi0
                          · rw [hkeyn, hkeyo i hin] at hlt
                            have hic : InChain S l i := ⟨⟨by omega, by omega⟩, hil⟩
                            have hle := hpmax i hic hlt
                            have hne2 : keyOf S i ≠ keyOf S (prev.getD l 0) :=
                              fun heq2 => hip (hWf.distinct i (prev.getD l 0)
                                ⟨by omega, by omega⟩ hpr heq2)
                            right
                            omega
                    have hle := hmm (prev.getD l 0) hafter_ip.2 hafter_ip.1
                    rcases hps with ⟨h0, -⟩ | ⟨-, -, hpk, -⟩
                    · exfalso
                      have := hafter_ip.2.1.1
                      omega
                    · omega
                  · have hjc := hchaino l j hj hjn
                    rw [hkeyo m hmne, hkeyo j hjn]
                    refine hmm j hjc ?_
                    rcases haft with h0 | hlt
                    · exact Or.inl h0
                    · rw [hkeyo i hin, hkeyo j hjn] at hlt
                      exact Or.inr hlt
          · -- level at or above the new height: the new node is not in
            -- the level-l chain, links transport unchanged
            cases hv : nodeNext S i l with
            | none =>
                rw [hv] at hNS
                intro j hj haft
                by_cases hjn : j = n
                · have := hj.2
                  rw [hjn, hhn] at this
                  omega
                · have hjc := hchaino l j hj hjn
                  refine hNS j hjc ?_
                  rcases haft with h0 | hlt
                  · exact Or.inl h0
                  · rw [hkeyo i hin, hkeyo j hjn] at hlt
                    exact Or.inr hlt
            | some m =>
                rw [hv] at hNS
                obtain ⟨⟨⟨hm1, hm2⟩, hmh⟩, hma, hmm⟩ := hNS
                have hmne : m ≠ n := by omega
                refine ⟨⟨⟨hm1, by rw [hlen]; omega⟩, by rw [hho m hmne]; exact hmh⟩,
                  ?_, ?_⟩
                · rcases hma with h0 | hlt
                  · exact Or.inl h0
                  · right
                    rw [hkeyo i hin, hkeyo m hmne]
                    exact hlt
                · intro j hj haft
                  by_cases hjn : j = n
                  · have := hj.2
                    rw [hjn, hhn] at this
                    omega
                  · have hjc := hchaino l j hj hjn
                    rw [hkeyo m hmne, hkeyo j hjn]
                    refine hmm j hjc ?_
                    rcases haft with h0 | hlt
                    · exact Or.inl h0
                    · rw [hkeyo i hin, hkeyo j hjn] at hlt
                      exact Or.inr hlt

/-- The key v is stored in the list. -/
def HasKey (S : SkipList) (v : Int) : Prop :=
  ∃ j, Real S j ∧ keyOf S j = v

theorem getD_replicate_none (h l : Nat) :
    (List.replicate h (none : Option Nat)).getD l none = none := by
  by_cases hl : l < h
  · simp [List.getD_eq_getElem?_getD, List.getElem?_replicate, hl]
  · rw [List.getD_eq_default]
    rw [List.length_replicate]
    omega

/-- A freshly constructed skip list is well-formed. -/
theorem mkSkipList_Wf (rnd : Nat → Bool) : Wf (mkSkipList rnd) := by
  have hnr : ∀ j, ¬ Real (mkSkipList rnd) j := by
    intro j hj
    have h1 := hj.1
    have h2 := hj.2
    unfold mkSkipList at h2
    simp at h2
    omega
  refine ⟨?_, ?_, ?_, ?_, ?_, ?_, ?_, ?_⟩
  · unfold mkSkipList
    simp
  · unfold heightOf getNode mkSkipList
    simp
  · exact le_refl 1
  · show (1 : Nat) ≤ kMaxHeight
    unfold kMaxHeight
    omega
  · intro j hj
    exact absurd hj (hnr j)
  · intro j hj
    exact absurd hj (hnr j)
  · intro i j hi
    exact absurd hi (hnr i)
  · intro i l hi hl
    have hi0 : i = 0 := by
      unfold mkSkipList at hi
      simp at hi
      omega
    subst hi0
    have hval : nodeNext (mkSkipList rnd) 0 l = none := by
      unfold nodeNext listNext getNode mkSkipList
      simp only [List.getD_cons_zero]
      exact getD_replicate_none ..
    rw [hval]
    intro j hj
    exact absurd hj.1 (hnr j)

/-- An empty skip list holds no key. -/
theorem mkSkipList_HasKey (rnd : Nat → Bool) (v : Int) :
    ¬ HasKey (mkSkipList rnd) v := by
  rintro ⟨j, hj, -⟩
  have h2 := hj.2
  unfold mkSkipList at h2
  simp at h2
  have h1 := hj.1
  omega

/-- Insert adds exactly the inserted key to the key set. -/
theorem Insert_HasKey (S : SkipList) (K : Int) (hWf : Wf S) (v : Int) :
    HasKey (Insert S K) v ↔ (v = K ∨ HasKey S v) := by
  obtain ⟨prev, -, -, hlen, hkey, -, -, -, -, -, -⟩ := Insert_char S K hWf
  have hn1 : 1 ≤ S.nodes.length := hWf.head_lt
  constructor
  · rintro ⟨j, hj, hjk⟩
    by_cases hjn : j = S.nodes.length
    · left
      rw [hkey j, if_pos hjn] at hjk
      omega
    · right
      refine ⟨j, ⟨hj.1, ?_⟩, ?_⟩
      · have := hj.2
        rw [hlen] at this
        omega
      · rw [hkey j, if_neg hjn] at hjk
        exact hjk
  · rintro (hv | ⟨j, hj, hjk⟩)
    · refine ⟨S.nodes.length, ⟨by omega, by rw [hlen]; omega⟩, ?_⟩
      rw [hkey _, if_pos rfl]
      omega
    · refine ⟨j, ⟨hj.1, by rw [hlen]; have := hj.2; omega⟩, ?_⟩
      rw [hkey j, if_neg (by have := hj.2; omega)]
      exact hjk

/-- A sequence of inserts of fresh, pairwise-distinct keys preserves
well-formedness and the key set is exactly the inserted keys. -/
theorem insertSeq_spec :
    ∀ (ks : List Int) (S : SkipList), Wf S →
      (∀ k ∈ ks, ¬ HasKey S k) → ks.Nodup →
      Wf (insertSeq S ks) ∧
      (∀ v, HasKey (insertSeq S ks) v ↔ (v ∈ ks ∨ HasKey S v)) := by
  intro ks
  induction ks with
  | nil =>
      intro S hWf _ _
      refine ⟨hWf, ?_⟩
      intro v
      simp [insertSeq]
  | cons k ks ih =>
      intro S hWf hfresh hnd
      have hWf1 : Wf (Insert S k) :=
        Insert_Wf S k hWf (fun j hj heq =>
          hfresh k (List.mem_cons_self ..) ⟨j, hj, heq⟩)
      have hfresh1 : ∀ k2 ∈ ks, ¬ HasKey (Insert S k) k2 := by
        intro k2 hk2 hhk
        rw [Insert_HasKey S k hWf k2] at hhk
        rcases hhk with heq | hhk
        · rw [heq] at hk2
          exact (List.nodup_cons.mp hnd).1 hk2
        · exact hfresh k2 (List.mem_cons_of_mem _ hk2) hhk
      have hnd1 : ks.Nodup := (List.nodup_cons.mp hnd).2
      obtain ⟨hWf2, hmem⟩ := ih (Insert S k) hWf1 hfresh1 hnd1
      have hseq : insertSeq S (k :: ks) = insertSeq (Insert S k) ks := rfl
      rw [hseq]
      refine ⟨hWf2, ?_⟩
      intro v
      rw [hmem v, Insert_HasKey S k hWf v, List.mem_cons]
      tauto

/-- Contains decides key membership on a well-formed list. -/
theorem Contains_iff (S : SkipList) (k : Int) (hWf : Wf S) :
    Contains S k = true ↔ HasKey S k := by
  unfold Contains
  obtain ⟨res, p, heq, hge, -, -, -⟩ := FindGreaterOrEqual_spec S k hWf
  rw [heq]
  cases res with
  | none =>
      simp only []
      constructor
      · intro hfalse
        exact absurd hfalse (by simp)
      · rintro ⟨j, hj, hjk⟩
        have := hge j hj
        omega
  | some r =>
      obtain ⟨hr, hk, hmin⟩ := hge
      simp only []
      rw [Equal_true_iff]
      constructor
      · intro hkk
        exact ⟨r, hr, hkk.symm⟩
      · rintro ⟨j, hj, hjk⟩
        have h1 := hmin j hj (by omega)
        omega

/-- Forward iteration from a node yields exactly the keys above it, in
strictly increasing order. -/
theorem iterKeysAux_spec (S : SkipList) (hWf : Wf S) :
    ∀ (fuel x : Nat),
      x < S.nodes.length →
      0 < heightOf S x →
      (midNodes S (bOf S x) none).length < fuel →
      List.Perm (iterKeysAux S fuel (nodeNext S x 0))
        ((midNodes S (bOf S x) none).map (keyOf S)) ∧
      List.Pairwise (· < ·) (iterKeysAux S fuel (nodeNext S x 0)) := by
  intro fuel
  induction fuel with
  | zero => intro x _ _ hf; omega
  | succ fuel ih =>
      intro x hx hhx hf
      have hNS := hWf.links x 0 hx hhx
      cases hv : nodeNext S x 0 with
      | none =>
          rw [hv] at hNS
          have hmid : midNodes S (bOf S x) none = [] := by
            rw [List.eq_nil_iff_forall_not_mem]
            intro j hj
            obtain ⟨hjr, hja, -⟩ := (mem_midNodes ..).mp hj
            exact hNS j (real_inChain0 S hWf j hjr)
              ((after_iff_aboveB S x j).mpr hja)
          rw [hmid]
          exact ⟨List.Perm.refl _, List.Pairwise.nil⟩
      | some m =>
          rw [hv] at hNS
          obtain ⟨⟨⟨hm1, hm2⟩, hmh⟩, hma, hmm⟩ := hNS
          have hmmem : m ∈ midNodes S (bOf S x) none := by
            rw [mem_midNodes]
            exact ⟨⟨hm1, hm2⟩, (after_iff_aboveB S x m).mp hma, rfl⟩
          have hmin : ∀ j, j ∈ midNodes S (bOf S x) none → j ≠ m →
              keyOf S m < keyOf S j := by
            intro j hj hjm
            obtain ⟨hjr, hja, -⟩ := (mem_midNodes ..).mp hj
            have hle := hmm j (real_inChain0 S hWf j hjr)
              ((after_iff_aboveB S x j).mpr hja)
            have hne : keyOf S m ≠ keyOf S j := fun heq =>
              hjm (hWf.distinct j m hjr ⟨hm1, hm2⟩ heq.symm)
            omega
          have hperm := midNodes_cons_perm S (bOf S x) none m hmmem hmin
          have hbm : bOf S m = some (keyOf S m) := by
            unfold bOf
            rw [if_neg (by omega)]
          have hlen := hperm.length_eq
          rw [List.length_cons] at hlen
          have hcnt : (midNodes S (bOf S m) none).length < fuel := by
            rw [hbm]
            omega
          obtain ⟨ihperm, ihpair⟩ := ih m hm2 (hWf.height_pos m ⟨hm1, hm2⟩) hcnt
          have hstep : iterKeysAux S (fuel + 1) (some m) =
              keyOf S m :: iterKeysAux S fuel (nodeNext S m 0) := rfl
          rw [hstep]
          constructor
          · refine List.Perm.trans (List.Perm.cons _ ?_) (hperm.map (keyOf S)).symm
            rw [← hbm]
            exact ihperm
          · rw [List.pairwise_cons]
            refine ⟨?_, ihpair⟩
            intro v hv2
            have hvmem : v ∈ (midNodes S (bOf S m) none).map (keyOf S) :=
              ihperm.mem_iff.mp hv2
            obtain ⟨j, hj, hjv⟩ := List.mem_map.mp hvmem
            obtain ⟨-, hja, -⟩ := (mem_midNodes ..).mp hj
            rw [hbm] at hja
            unfold aboveB at hja
            rw [decide_eq_true_iff] at hja
            omega

/-- Keys listed by full iteration are a sorted permutation of the key
set. -/
theorem iterKeys_spec (S : SkipList) (hWf : Wf S) :
    List.Perm (iterKeys S) ((midNodes S none none).map (keyOf S)) ∧
    List.Pairwise (· < ·) (iterKeys S) := by
  unfold iterKeys SeekToFirstNode
  have hb0 : bOf S 0 = none := rfl
  have hh0 : 0 < heightOf S 0 := by
    rw [hWf.head_height]
    unfold kMaxHeight
    omega
  have hle2 : (midNodes S (bOf S 0) none).length ≤ S.nodes.length := by
    unfold midNodes
    exact Nat.le_trans (List.length_filter_le ..) (by rw [List.length_range])
  have hcnt : (midNodes S (bOf S 0) none).length < S.nodes.length + 1 := by
    omega
  obtain ⟨hperm, hpair⟩ :=
    iterKeysAux_spec S hWf (S.nodes.length + 1) 0 hWf.head_lt hh0 hcnt
  rw [hb0] at hperm
  exact ⟨hperm, hpair⟩

theorem mem_keys_iff (S : SkipList) (v : Int) :
    v ∈ (midNodes S none none).map (keyOf S) ↔ HasKey S v := by
  rw [List.mem_map]
  constructor
  · rintro ⟨j, hj, hjv⟩
    obtain ⟨hjr, -, -⟩ := (mem_midNodes ..).mp hj
    exact ⟨j, hjr, hjv⟩
  · rintro ⟨j, hjr, hjv⟩
    refine ⟨j, ?_, hjv⟩
    rw [mem_midNodes]
    exact ⟨hjr, rfl, rfl⟩

/-! ### Claim theorems for the skip list -/

/-- max_height never shrinks across any single Insert. -/
theorem Insert_max_mono (S : SkipList) (k : Int) :
    S.max_height ≤ (Insert S k).max_height := by
  unfold Insert
  split
  · exact le_refl _
  · dsimp only
    split_ifs <;> omega

/-- C1: after any single-writer sequence of inserts with pairwise distinct
keys into an empty list, Contains is true exactly on the inserted keys,
and forward iteration from SeekToFirst visits exactly the inserted keys in
strictly increasing key order. -/
theorem c1_contains_and_iteration_correct :
    ∀ (rnd : Nat → Bool) (ks : List Int), ks.Nodup →
      (∀ k ∈ ks, Contains (insertSeq (mkSkipList rnd) ks) k = true) ∧
      (∀ k, k ∉ ks → Contains (insertSeq (mkSkipList rnd) ks) k = false) ∧
      List.Perm (iterKeys (insertSeq (mkSkipList rnd) ks)) ks ∧
      List.Pairwise (· < ·) (iterKeys (insertSeq (mkSkipList rnd) ks)) := by
  intro rnd ks hnd
  obtain ⟨hWf, hmem⟩ := insertSeq_spec ks (mkSkipList rnd) (mkSkipList_Wf rnd)
    (fun k _ => mkSkipList_HasKey rnd k) hnd
  set S := insertSeq (mkSkipList rnd) ks with hS
  have hmem2 : ∀ v, HasKey S v ↔ v ∈ ks := by
    intro v
    rw [hmem v]
    constructor
    · rintro (h | h)
      · exact h
      · exact absurd h (mkSkipList_HasKey rnd v)
    · exact Or.inl
  obtain ⟨hperm, hpair⟩ := iterKeys_spec S hWf
  have hiter_mem : ∀ v, v ∈ iterKeys S ↔ v ∈ ks := by
    intro v
    rw [hperm.mem_iff, mem_keys_iff, hmem2 v]
  refine ⟨?_, ?_, ?_, hpair⟩
  · intro k hk
    rw [Contains_iff S k hWf, hmem2 k]
    exact hk
  · intro k hk
    cases hb : Contains S k with
    | false => rfl
    | true =>
        exact absurd ((hmem2 k).mp ((Contains_iff S k hWf).mp hb)) hk
  · have hnodupIter : (iterKeys S).Nodup :=
      hpair.imp (fun h => ne_of_lt h)
    exact (List.perm_ext_iff_of_nodup hnodupIter hnd).mpr hiter_mem

/-- Witness for C1 on the insert sequence [2, 1]. -/
theorem c1_witness :
    ([2, 1] : List Int).Nodup ∧
    ∀ k ∈ ([2, 1] : List Int),
      Contains (insertSeq (mkSkipList (fun _ => false)) [2, 1]) k = true :=
  ⟨by decide,
   (c1_contains_and_iteration_correct (fun _ => false) [2, 1] (by decide)).1⟩

/-- C6: max_height is monotone and bounded by [1, kMaxHeight], sampled
heights lie in [1, kMaxHeight], and an insert sampled taller than the
current max raises max_height to exactly the sampled height with every new
top level linked from the head to the new node. -/
theorem c6_max_height_growth :
    ∀ (rnd : Nat → Bool) (ks : List Int) (k : Int), ks.Nodup →
      (∀ (T : SkipList) (k2 : Int), T.max_height ≤ (Insert T k2).max_height) ∧
      (∀ (rnd2 : Nat → Bool) (idx : Nat),
        1 ≤ (randomHeightGo rnd2 idx 1 kMaxHeight).1 ∧
        (randomHeightGo rnd2 idx 1 kMaxHeight).1 ≤ kMaxHeight) ∧
      1 ≤ (insertSeq (mkSkipList rnd) ks).max_height ∧
      (insertSeq (mkSkipList rnd) ks).max_height ≤ kMaxHeight ∧
      ((insertSeq (mkSkipList rnd) ks).max_height <
          (RandomHeight (insertSeq (mkSkipList rnd) ks)).1 →
        (Insert (insertSeq (mkSkipList rnd) ks) k).max_height =
          (RandomHeight (insertSeq (mkSkipList rnd) ks)).1 ∧
        ∀ l, (insertSeq (mkSkipList rnd) ks).max_height ≤ l →
          l < (RandomHeight (insertSeq (mkSkipList rnd) ks)).1 →
          nodeNext (Insert (insertSeq (mkSkipList rnd) ks) k) 0 l =
            some (insertSeq (mkSkipList rnd) ks).nodes.length) := by
  intro rnd ks k hnd
  obtain ⟨hWf, -⟩ := insertSeq_spec ks (mkSkipList rnd) (mkSkipList_Wf rnd)
    (fun k2 _ => mkSkipList_HasKey rnd k2) hnd
  set S := insertSeq (mkSkipList rnd) ks with hS
  refine ⟨Insert_max_mono, fun rnd2 idx =>
    randomHeightGo_bounds rnd2 kMaxHeight idx 1 (le_refl 1)
      (by unfold kMaxHeight; omega),
    hWf.max_pos, hWf.max_le, ?_⟩
  intro htall
  obtain ⟨prev, hPrevAll, hzero, hlen, hkey, hheight, hmax, hnext, -, -, -⟩ :=
    Insert_char S k hWf
  have hn1 : 1 ≤ S.nodes.length := hWf.head_lt
  constructor
  · rw [hmax]
    omega
  · intro l hl1 hl2
    rw [hnext 0 l]
    rw [if_neg (by omega)]
    rw [if_pos ⟨hl2, (hzero l hl1).symm⟩]

/-- Witness for C6 with an all-true coin stream (sampled height 12). -/
theorem c6_witness :
    ([] : List Int).Nodup ∧
    1 ≤ (insertSeq (mkSkipList (fun _ => true)) []).max_height ∧
    (insertSeq (mkSkipList (fun _ => true)) []).max_height ≤ kMaxHeight :=
  ⟨by decide,
   (c6_max_height_growth (fun _ => true) [] 5 (by decide)).2.2.1,
   (c6_max_height_growth (fun _ => true) [] 5 (by decide)).2.2.2.1⟩

/-- C8: after inserting [5, 1, 9, 3] into an empty list, Seek(4) lands on
the node with key 5, SeekToLast on the node with key 9, and Prev from that
node lands on the node with key 5 — for every random stream. -/
theorem c8_seek_scenario :
    ∀ rnd : Nat → Bool,
      (∃ i, SeekNode (insertSeq (mkSkipList rnd) [5, 1, 9, 3]) 4 = some i ∧
        keyOf (insertSeq (mkSkipList rnd) [5, 1, 9, 3]) i = 5) ∧
      (∃ j, SeekToLastNode (insertSeq (mkSkipList rnd) [5, 1, 9, 3]) = some j ∧
        keyOf (insertSeq (mkSkipList rnd) [5, 1, 9, 3]) j = 9 ∧
        ∃ q, PrevNode (insertSeq (mkSkipList rnd) [5, 1, 9, 3]) j = some q ∧
          keyOf (insertSeq (mkSkipList rnd) [5, 1, 9, 3]) q = 5) := by
  intro rnd
  have hnd : ([5, 1, 9, 3] : List Int).Nodup := by decide
  obtain ⟨hWf, hmem⟩ := insertSeq_spec [5, 1, 9, 3] (mkSkipList rnd)
    (mkSkipList_Wf rnd) (fun k2 _ => mkSkipList_HasKey rnd k2) hnd
  set S := insertSeq (mkSkipList rnd) [5, 1, 9, 3] with hS
  have hmem2 : ∀ v, HasKey S v ↔ v ∈ ([5, 1, 9, 3] : List Int) := by
    intro v
    rw [hmem v]
    constructor
    · rintro (h | h)
      · exact h
      · exact absurd h (mkSkipList_HasKey rnd v)
    · exact Or.inl
  obtain ⟨j5, hj5, hk5⟩ : HasKey S 5 := (hmem2 5).mpr (by decide)
  obtain ⟨j9, hj9, hk9⟩ : HasKey S 9 := (hmem2 9).mpr (by decide)
  have hset : ∀ v, HasKey S v → v = 5 ∨ v = 1 ∨ v = 9 ∨ v = 3 := by
    intro v hv
    have := (hmem2 v).mp hv
    simp at this
    tauto
  constructor
  · -- Seek(4)
    obtain ⟨res, p, heq, hge, -, -, -⟩ := FindGreaterOrEqual_spec S 4 hWf
    cases res with
    | none =>
        exfalso
        have := hge j5 hj5
        omega
    | some r =>
        obtain ⟨hr, h4le, hmin⟩ := hge
        have hle5 : keyOf S r ≤ 5 := by
          have := hmin j5 hj5 (by omega)
          omega
        have hkr : keyOf S r = 5 := by
          have := hset (keyOf S r) ⟨r, hr, rfl⟩
          omega
        refine ⟨r, ?_, hkr⟩
        unfold SeekNode
        rw [heq]
  · -- SeekToLast and Prev
    obtain ⟨r2, heq2, hlast⟩ := FindLast_spec S hWf
    rcases hlast with ⟨-, hnone⟩ | ⟨hr2, hmax2⟩
    · exact absurd hj5 (hnone j5)
    · have h9le : (9 : Int) ≤ keyOf S r2 := by
        have := hmax2 j9 hj9
        omega
      have hkr2 : keyOf S r2 = 9 := by
        have := hset (keyOf S r2) ⟨r2, hr2, rfl⟩
        omega
      have hr2ne : ¬ r2 = 0 := by
        have := hr2.1
        omega
      refine ⟨r2, ?_, hkr2, ?_⟩
      · unfold SeekToLastNode
        rw [heq2]
        show (if r2 = 0 then none else some r2) = some r2
        rw [if_neg hr2ne]
      · obtain ⟨y, heq3, hlt⟩ := FindLessThan_spec S 9 hWf
        rcases hlt with ⟨-, hnone3⟩ | ⟨hyr, hy9, hymax⟩
        · exfalso
          exact hnone3 j5 hj5 (by omega)
        · have h5le : (5 : Int) ≤ keyOf S y := by
            have := hymax j5 hj5 (by omega)
            omega
          have hky : keyOf S y = 5 := by
            have := hset (keyOf S y) ⟨y, hyr, rfl⟩
            omega
          have hyne : ¬ y = 0 := by
            have := hyr.1
            omega
          refine ⟨y, ?_, hky⟩
          unfold PrevNode
          rw [hkr2, heq3]
          show (if y = 0 then none else some y) = some y
          rw [if_neg hyne]

end LevelDB
